import Mathlib

/-!
# Risk-network analysis pipeline: a shallow embedding

Definitions translated from the Python sources of the `risk-network`
backend (`backend/app/services/{nlp,clustering,layout,analyzer}.py`),
followed by theorems settling the specification claims.

Modelling conventions:
* Python strings are `List Char` (`Str`), so every text operation is a
  computable, kernel-reducible list function.
* Numeric data is exact: `ℚ` for the vectors and scores the code
  manipulates, `ℝ` for the layout geometry (square roots, trigonometry).
* External library collaborators (the sentence-embedding model, UMAP,
  HDBSCAN, scikit-learn KMeans / silhouette / TF-IDF, the NetworkX
  spring solver) are black boxes in the sources; they enter the
  embedding as function parameters, and the contracts the sources rely
  on (unit-norm embedding rows, KMeans labels in `[0, k)`, sorted
  TF-IDF feature names) appear as explicit hypotheses.
* Python's stable sorts (`list.sort`, and `np.argsort` on the small
  arrays in play) are modelled by sorting with the corresponding
  value order refined by the index order, which pins the same unique
  result.
-/

namespace RiskNet

/-- A Python string, modelled as its character sequence. -/
abbrev Str := List Char

/-! ## §1 Text canonicalizer — `nlp.py`, `NLPService.combine_risk_text` -/

/-- The sentinel values of `clean_text` (`nlp.py` line 49). -/
def sentinelValues : List Str := ["na".data, "n/a".data, "nan".data, "none".data]

/-- Python `str.lower` (ASCII content in play). -/
def strLower (s : Str) : Str := s.map Char.toLower

/-- Python `str.strip()`: drop leading and trailing whitespace. -/
def pyStrip (s : Str) : Str :=
  ((s.dropWhile Char.isWhitespace).reverse.dropWhile Char.isWhitespace).reverse

/-- Chunks of a string between whitespace characters (empty chunks kept). -/
def splitChunks : Str → List Str
  | [] => [[]]
  | c :: cs =>
      let r := splitChunks cs
      if c.isWhitespace then [] :: r
      else (c :: r.headD []) :: r.tail

/-- Python `text.split()` with no separator: whitespace-delimited words,
empty chunks dropped. -/
def pySplit (s : Str) : List Str := (splitChunks s).filter (fun w => w ≠ [])

/-- Python `" ".join(text.split())` (`nlp.py` line 52): collapse internal
whitespace runs to single spaces. -/
def collapseWhitespace (s : Str) : Str := List.intercalate [' '] (pySplit s)

/-- `clean_text` (`nlp.py` lines 47–53): empty or sentinel-valued text maps
to `""`; note the sentinel test is on the raw lowercased value, before any
trimming.  Otherwise whitespace is collapsed and the result stripped. -/
def cleanText (s : Str) : Str :=
  if s = [] ∨ strLower s ∈ sentinelValues then []
  else pyStrip (collapseWhitespace s)

/-- The text fields of a risk record that the canonicalizer reads
(`schemas.py` `RiskBase`: `title`/`cause` optional, `description`
required; `analyzer.py` feeds `model_dump(by_alias=True)` dictionaries,
whose `id` key holds the external id). -/
structure Risk where
  id : Str
  title : Option Str := none
  cause : Option Str := none
  description : Str := []
  deriving Repr, DecidableEq

/-- The contribution of one optional field: nothing when the field is
`None`, otherwise whatever the field-specific body yields.  (Mirrors the
`if risk.get(...)` guards around each field.) -/
def optField (o : Option Str) (f : Str → List Str) : List Str :=
  match o with
  | some t => f t
  | none => []

/-- `combine_risk_text` (`nlp.py` lines 43–72): title emitted twice when
truthy and cleaning to something non-empty, then cause, then description,
joined with single spaces and stripped.  `risk.get(f)` truthiness makes
`None` and `""` both skip a field. -/
def combine_risk_text (r : Risk) : Str :=
  let titleParts : List Str := optField r.title (fun t =>
    if t ≠ [] then
      (if cleanText t ≠ [] then [cleanText t, cleanText t] else [])
    else [])
  let causeParts : List Str := optField r.cause (fun c =>
    if c ≠ [] then
      (if cleanText c ≠ [] then [cleanText c] else [])
    else [])
  let descParts : List Str :=
    if r.description ≠ [] then
      (if cleanText r.description ≠ [] then [cleanText r.description] else [])
    else []
  pyStrip (List.intercalate [' '] (titleParts ++ causeParts ++ descParts))

/-- The canonicalizer as claim C6 words it: a field is dropped exactly when
its *trimmed*, case-insensitive value is empty or a sentinel; kept fields
have their internal whitespace collapsed; concatenation order is title,
title, cause, description.  This definition follows the specification
text, for comparison against `combine_risk_text` (which follows the
source). -/
def claimFieldParts (t : Str) (copies : ℕ) : List Str :=
  if pyStrip t = [] ∨ strLower (pyStrip t) ∈ sentinelValues then []
  else List.replicate copies (collapseWhitespace t)

/-- The C6 claim's canonicalizer, assembled from `claimFieldParts`
(an absent field contributes nothing). -/
def claimCombine (r : Risk) : Str :=
  let titleParts := optField r.title (fun t => claimFieldParts t 2)
  let causeParts := optField r.cause (fun c => claimFieldParts c 1)
  List.intercalate [' '] (titleParts ++ causeParts ++ claimFieldParts r.description 1)

/-- Amended C6 canonicalizer: identical to the claim's, except that the
sentinel test applies to the raw (untrimmed) case-insensitive field value,
and a field is also dropped when absent, empty, or all whitespace. -/
def amendedFieldParts (t : Str) (copies : ℕ) : List Str :=
  if t = [] ∨ strLower t ∈ sentinelValues ∨ collapseWhitespace t = [] then []
  else List.replicate copies (collapseWhitespace t)

/-- The amended C6 canonicalizer, assembled from `amendedFieldParts`. -/
def amendedCombine (r : Risk) : Str :=
  let titleParts := optField r.title (fun t => amendedFieldParts t 2)
  let causeParts := optField r.cause (fun c => amendedFieldParts c 1)
  List.intercalate [' '] (titleParts ++ causeParts ++ amendedFieldParts r.description 1)

/-! ## §2 Embeddings and the similarity graph — `nlp.py` -/

/-- Dot product of two vectors (`np.dot` on equal-length rows). -/
def dot (u v : List ℚ) : ℚ := (List.zipWith (fun a b => a * b) u v).sum

/-- `embed_risks` (`nlp.py` lines 74–116), parametrized by the external
sentence-transformer `encode` (called with `normalize_embeddings=True`):
canonicalize every record, keep the indices with non-blank text, encode
those, and scatter the encoded rows back into a zero-initialized
`n × dim` matrix.  Raises `ValueError` when no record has valid text. -/
def embed_risks (encode : List Str → List (List ℚ)) (risks : List Risk) :
    Except String (List (List ℚ)) :=
  let texts := risks.map combine_risk_text
  let validIndices := (List.range risks.length).filter
    (fun i => pyStrip (texts.getD i []) ≠ [])
  let validTexts := validIndices.map (fun i => texts.getD i [])
  if validTexts = [] then
    Except.error "No valid text content found in risks"
  else
    let embeddings := encode validTexts
    let dim := (embeddings.headD []).length
    Except.ok ((List.range risks.length).map (fun i =>
      match validIndices.indexOf? i with
      | some pos => embeddings.getD pos (List.replicate dim 0)
      | none => List.replicate dim 0))

/-- `compute_similarity_matrix` (`nlp.py` lines 118–129), entrywise:
`(E @ E.T)[i, j]` is the dot product of rows `i` and `j`. -/
def simEntry (E : List (List ℚ)) (i j : ℕ) : ℚ := dot (E.getD i []) (E.getD j [])

/-- The candidate list built for node `i` (`nlp.py` line 156):
`[(j, sim_matrix[i, j]) for j in range(n) if i != j]`, in ascending `j`. -/
def simCandidates (E : List (List ℚ)) (n i : ℕ) : List (ℕ × ℚ) :=
  ((List.range n).filter (fun j => j ≠ i)).map (fun j => (j, simEntry E i j))

/-- `sims.sort(key=lambda x: x[1], reverse=True)` (`nlp.py` line 158):
Python's stable descending sort; ties keep the ascending-`j` input order,
which the index tie-break below pins to the same unique result. -/
def simRanking (E : List (List ℚ)) (n i : ℕ) : List (ℕ × ℚ) :=
  List.insertionSort
    (fun p q : ℕ × ℚ => q.2 < p.2 ∨ (p.2 = q.2 ∧ p.1 ≤ q.1))
    (simCandidates E n i)

/-- The accepted prefix of node `i`'s ranking (`nlp.py` lines 161–171): walk
the descending ranking, stop at the first similarity below `threshold` or
once `maxPerNode` entries are accepted. -/
def acceptedPairs (E : List (List ℚ)) (n : ℕ) (threshold : ℚ) (maxPerNode i : ℕ) :
    List (ℕ × ℚ) :=
  ((simRanking E n i).takeWhile (fun p => !decide (p.2 < threshold))).take maxPerNode

/-- The neighbour indices node `i` accepts. -/
def acceptedNeighbors (E : List (List ℚ)) (n : ℕ) (threshold : ℚ) (maxPerNode i : ℕ) :
    List ℕ :=
  (acceptedPairs E n threshold maxPerNode i).map Prod.fst

/-- `find_similar_pairs` (`nlp.py` lines 131–177): every node contributes
its accepted neighbours as canonical `(min, max, sim)` triples; the Python
`set` deduplicates. -/
def find_similar_pairs (E : List (List ℚ)) (threshold : ℚ) (maxPerNode : ℕ) :
    List (ℕ × ℕ × ℚ) :=
  let n := E.length
  ((List.range n).flatMap (fun i =>
    (acceptedNeighbors E n threshold maxPerNode i).map
      (fun j => (min i j, max i j, simEntry E i j)))).dedup

/-! ## §3 Keyword extraction — `nlp.py`, `NLPService.extract_keywords` -/

/-- Ascending order on indices by their weight in `v`, ties by ascending
index — the unique linear refinement a stable ascending sort realizes. -/
def rankAsc (v : List ℚ) (a b : ℕ) : Prop :=
  v.getD a 0 < v.getD b 0 ∨ (v.getD a 0 = v.getD b 0 ∧ a ≤ b)

/-- Descending order on indices by their weight in `v`, ties by
*descending* index: the exact reverse of `rankAsc`. -/
def rankDesc (v : List ℚ) (a b : ℕ) : Prop :=
  v.getD b 0 < v.getD a 0 ∨ (v.getD b 0 = v.getD a 0 ∧ b ≤ a)

instance (v : List ℚ) : DecidableRel (rankAsc v) := fun a b => by
  unfold rankAsc; infer_instance

instance (v : List ℚ) : DecidableRel (rankDesc v) := fun a b => by
  unfold rankDesc; infer_instance

/-- `np.argsort` over a weight vector, ascending; ties resolved by
ascending index (the stable behaviour, which numpy exhibits on the short
arrays in play). -/
def argsortAsc (v : List ℚ) : List ℕ :=
  List.insertionSort (rankAsc v) (List.range v.length)

/-- `tfidf_matrix[indices].mean(axis=0)` (`nlp.py` line 217): columnwise
mean of the selected rows, over `m` columns. -/
def colMean (rows : List (List ℚ)) (m : ℕ) : List ℚ :=
  (List.range m).map (fun c => (rows.map (fun r => r.getD c 0)).sum / rows.length)

/-- `sorted(set(labels))` (`nlp.py` line 201). -/
def sortedUnique (labels : List ℤ) : List ℤ :=
  List.insertionSort (fun a b : ℤ => a ≤ b) labels.dedup

/-- The keyword list `extract_keywords` computes for one cluster label
(`nlp.py` lines 204–221): label `-1` maps to the literal
`["unclustered"]`; any other label maps to the `top_n` feature names of
`argsort(mean)[::-1][:top_n]` over its members' averaged weights. -/
def keywordsForLabel (tfidf : List (List ℚ)) (featureNames : List Str)
    (labels : List ℤ) (top_n : ℕ) (label : ℤ) : List Str :=
  if label = -1 then ["unclustered".data]
  else
    let indices := (List.range labels.length).filter
      (fun i => labels.getD i 0 = label)
    if indices = [] then []
    else
      let clusterTfidf := colMean (indices.map (fun i => tfidf.getD i []))
        featureNames.length
      let topIdx := ((argsortAsc clusterTfidf).reverse).take top_n
      topIdx.map (fun i => featureNames.getD i [])

/-- `extract_keywords` (`nlp.py` lines 179–223), parametrized by the
external TF-IDF vectorizer's output on the request corpus: the weight
matrix `tfidf` (one row per text) and the feature-name list.  The
returned dictionary has one entry per label in `sorted(set(labels))`. -/
def extract_keywords (tfidf : List (List ℚ)) (featureNames : List Str)
    (labels : List ℤ) (top_n : ℕ) : List (ℤ × List Str) :=
  (sortedUnique labels).map (fun label =>
    (label, keywordsForLabel tfidf featureNames labels top_n label))

/-- Descending weight order with ties by *ascending* index — the ranking
claim C7 words (feature names being sorted, ascending index is
lexicographic term order). -/
def claimRank (v : List ℚ) (a b : ℕ) : Prop :=
  v.getD b 0 < v.getD a 0 ∨ (v.getD a 0 = v.getD b 0 ∧ a ≤ b)

instance (v : List ℚ) : DecidableRel (claimRank v) := fun a b => by
  unfold claimRank; infer_instance

/-- The keyword ranking as claim C7 words it: terms ranked descending by
averaged weight, ties broken by *lexicographic term order*.  Spec-side
definition, for comparison with `extract_keywords`. -/
def claimTopTerms (v : List ℚ) (featureNames : List Str) (top_n : ℕ) : List Str :=
  ((List.insertionSort (claimRank v) (List.range v.length)).take top_n).map
    (fun i => featureNames.getD i [])

/-- The keyword ranking the code actually produces: descending by averaged
weight, ties broken by *descending* index, i.e. reverse lexicographic
order of the sorted feature names. -/
def amendedTopTerms (v : List ℚ) (featureNames : List Str) (top_n : ℕ) : List Str :=
  ((List.insertionSort (rankDesc v) (List.range v.length)).take top_n).map
    (fun i => featureNames.getD i [])

/-! ## §4 Cluster engine — `clustering.py`, `ClusteringService` -/

/-- The clustering parameters carried by `ClusteringService.__init__`
(`clustering.py` lines 27–37).  `cluster_selection_epsilon` and `metric`
are forwarded verbatim to the external HDBSCAN call and are absorbed into
the black-box parameter below. -/
structure ClusteringParams where
  min_cluster_size : ℕ := 3
  min_samples : Option ℕ := none
  deriving Repr, DecidableEq

/-- `self.min_samples = min_samples or min_cluster_size`: Python `or`
treats both `None` and `0` as falsy. -/
def effectiveMinSamples (p : ClusteringParams) : ℕ :=
  match p.min_samples with
  | some m => if m = 0 then p.min_cluster_size else m
  | none => p.min_cluster_size

/-- `ClusteringResult` (`clustering.py` lines 13–18); the
`reduced_embeddings` field is dropped here as no claim reads it. -/
structure ClusteringResult where
  labels : List ℤ
  probabilities : List ℚ
  nClusters : ℕ
  deriving Repr, DecidableEq

/-- The external collaborators of the cluster engine.  Each field stands
for a scikit-learn / hdbscan / umap call the service makes; the service's
own logic around them is modelled exactly. -/
structure ClusterExternals where
  /-- `umap.UMAP(...).fit_transform` with the service's fixed settings,
  as a function of (matrix, n_components, n_neighbors); the
  `try/except` fallback to the original matrix is folded into totality. -/
  umapReduce : List (List ℚ) → ℕ → ℕ → List (List ℚ)
  /-- `hdbscan.HDBSCAN(...).fit_predict` and `.probabilities_` as a
  function of (min_cluster_size, min_samples, data). -/
  hdbscanFit : ℕ → ℕ → List (List ℚ) → List ℤ × List ℚ
  /-- `KMeans(n_clusters=k, n_init=10, random_state=42).fit_predict`. -/
  kmeansFit : List (List ℚ) → ℕ → List ℤ
  /-- `kmeans.transform(embeddings)` of the same fit: the matrix of
  distances from each point to each of the `k` fitted centroids. -/
  kmeansTransform : List (List ℚ) → ℕ → List (List ℚ)
  /-- `KMeans(n_clusters=k, random_state=42, n_init=5).fit_predict`, the
  variant used inside `_find_optimal_k`. -/
  kmeansFit5 : List (List ℚ) → ℕ → List ℤ
  /-- `silhouette_score(embeddings, labels)`. -/
  silhouette : List (List ℚ) → List ℤ → ℚ

/-- `reduce_dimensions` (`clustering.py` lines 39–82): skipped below 5
samples; otherwise the neighbour and component counts are clamped and the
external reducer runs. -/
def reduce_dimensions (ext : ClusterExternals) (E : List (List ℚ))
    (n_components n_neighbors : ℕ) : List (List ℚ) :=
  let n := E.length
  if n < 5 then E
  else
    let nn := max 2 (min n_neighbors (n - 1))
    let nc := max 2 (min n_components (n - 2))
    ext.umapReduce E nc nn

/-- `min` of a nonempty rational list (`np.min`; `0` on `[]`, unused). -/
def listMin : List ℚ → ℚ
  | [] => 0
  | x :: xs => xs.foldl min x

/-- `max` of a nonempty rational list (`np.max`; `0` on `[]`, unused). -/
def listMax : List ℚ → ℚ
  | [] => 0
  | x :: xs => xs.foldl max x

/-- `cluster_hdbscan` (`clustering.py` lines 84–125): reduce when the
ambient dimension exceeds 50, run HDBSCAN, count the non-noise clusters as
`len(set(labels)) - (1 if -1 in labels else 0)`. -/
def cluster_hdbscan (ext : ClusterExternals) (p : ClusteringParams)
    (E : List (List ℚ)) : ClusteringResult :=
  let reduced := if 50 < (E.headD []).length then reduce_dimensions ext E 15 15 else E
  let fit := ext.hdbscanFit p.min_cluster_size (effectiveMinSamples p) reduced
  { labels := fit.1
    probabilities := fit.2
    nClusters := fit.1.dedup.length - (if (-1 : ℤ) ∈ fit.1 then 1 else 0) }

/-- `_find_optimal_k` (`clustering.py` lines 167–198): silhouette search
over `k ∈ [3, min(15, n-1)]`, skipping degenerate labelings, strict
improvement over a best score starting at `-1`, defaulting to `k = 3`. -/
def find_optimal_k (ext : ClusterExternals) (E : List (List ℚ)) : ℕ :=
  let n := E.length
  let minK := 3
  let maxK := min 15 (n - 1)
  if maxK ≤ minK then minK
  else
    (((List.range' minK (maxK - minK + 1)).foldl (fun best k =>
      let labels := ext.kmeansFit5 E k
      if labels.dedup.length < 2 then best
      else
        let score := ext.silhouette E labels
        if best.2 < score then (k, score) else best) ((minK, -1) : ℕ × ℚ))).1

/-- The `k` a `cluster_kmeans` call uses: the caller's, or the
silhouette search's (`clustering.py` lines 140–141). -/
def kmeansChosenK (ext : ClusterExternals) (E : List (List ℚ))
    (kOpt : Option ℕ) : ℕ :=
  match kOpt with
  | some k => k
  | none => find_optimal_k ext E

/-- `cluster_kmeans` (`clustering.py` lines 127–165): choose `k` (the
caller's, or the silhouette search's), fit, and derive pseudo-probabilities
`1 - min_distances / (min_distances.max() + 1e-10)`. -/
def cluster_kmeans (ext : ClusterExternals) (E : List (List ℚ))
    (kOpt : Option ℕ) : ClusteringResult :=
  let k := kmeansChosenK ext E kOpt
  let labels := ext.kmeansFit E k
  let distances := ext.kmeansTransform E k
  let minDistances := distances.map listMin
  let maxDist := listMax minDistances + 1 / 10 ^ 10
  { labels := labels
    probabilities := minDistances.map (fun d => 1 - d / maxDist)
    nClusters := k }

/-- The small-dataset parameter adjustment (`clustering.py` lines
227–230): below `2·min_cluster_size` samples, both `min_cluster_size` and
`min_samples` shrink to `max(2, n // 2)`. -/
def adjustParams (p : ClusteringParams) (n : ℕ) : ClusteringParams :=
  if n < p.min_cluster_size * 2 then
    { min_cluster_size := max 2 (n / 2), min_samples := some (max 2 (n / 2)) }
  else p

/-- `cluster` (`clustering.py` lines 200–246): the `n < 3` single-cluster
override, the parameter adjustment, the explicit-kmeans dispatch, then
HDBSCAN with the quality gate `n_clusters < 2 or noise > n * 0.5` guarding
the one K-Means fallback. -/
def cluster (ext : ClusterExternals) (p : ClusteringParams)
    (E : List (List ℚ)) (method : Str) (kOpt : Option ℕ) : ClusteringResult :=
  let n := E.length
  if n < 3 then
    { labels := List.replicate n 0
      probabilities := List.replicate n 1
      nClusters := 1 }
  else
    let p' := adjustParams p n
    if method = "kmeans".data ∨ (method = "auto".data ∧ kOpt.isSome) then
      cluster_kmeans ext E kOpt
    else
      let result := cluster_hdbscan ext p' E
      if result.nClusters < 2 ∨
          (E.length : ℚ) * (1 / 2) < (result.labels.count (-1) : ℚ) then
        cluster_kmeans ext E none
      else result

/-- The sequence of clustering strategies `cluster` actually runs, in
order, mirroring its control flow (used to state "fallback substitution
happens at most once per call"). -/
def clusterMethodsRun (ext : ClusterExternals) (p : ClusteringParams)
    (E : List (List ℚ)) (method : Str) (kOpt : Option ℕ) : List Str :=
  let n := E.length
  if n < 3 then []
  else
    let p' := adjustParams p n
    if method = "kmeans".data ∨ (method = "auto".data ∧ kOpt.isSome) then
      ["kmeans".data]
    else
      let result := cluster_hdbscan ext p' E
      if result.nClusters < 2 ∨
          (E.length : ℚ) * (1 / 2) < (result.labels.count (-1) : ℚ) then
        ["hdbscan".data, "kmeans".data]
      else ["hdbscan".data]

/-- The confidence formula as claim C4 words it: `1 − (distance to own
centroid / max distance to any centroid across all points)`, clamped to
`[0, 1]`.  Spec-side definition, for comparison with the probabilities
computed by `cluster_kmeans`. -/
def claimKmeansConfidence (distances : List (List ℚ)) (labels : List ℤ)
    (i : ℕ) : ℚ :=
  let own := (distances.getD i []).getD (labels.getD i 0).toNat 0
  let maxAny := listMax (distances.map listMax)
  max 0 (min 1 (1 - own / maxAny))

/-! ## §6 Analysis orchestrator — `analyzer.py`, `RiskAnalyzer.analyze`

(The layout engine, §5, is modelled after this section since only the
orchestrator-level claims need these definitions.) -/

instance : Inhabited Risk := ⟨⟨[], none, none, []⟩⟩

/-- An output edge (`schemas.py` `Edge`). -/
structure Edge where
  source : Str
  target : Str
  weight : ℚ
  edgeType : Str
  deriving Repr, DecidableEq

/-- An output node (`schemas.py` `RiskResponse`); the pass-through display
fields (title, cause, url, cost, …) are dropped as no claim reads them. -/
structure NodeOut where
  id : Str
  cluster : ℤ
  x : ℚ
  y : ℚ
  deriving Repr, DecidableEq

/-- An output cluster summary (`schemas.py` `ClusterInfo`). -/
structure ClusterOut where
  id : ℤ
  label : Str
  keywords : List Str
  size : ℕ
  x : ℚ
  y : ℚ
  deriving Repr, DecidableEq

/-- The response metadata dictionary (`analyzer.py` lines 197–201): the
`embedding_model` key holds `get_sentence_embedding_dimension()`, the
`clustering_method` key holds the literal string written there, and
`n_noise_points` counts the `-1` labels. -/
structure Metadata where
  embeddingModel : ℕ
  clusteringMethod : Str
  nNoisePoints : ℕ
  deriving Repr, DecidableEq

/-- `AnalysisResponse` (`schemas.py` lines 82–86); `metadata = none`
models the empty default dictionary. -/
structure AnalysisResponse where
  nodes : List NodeOut
  edges : List Edge
  clusters : List ClusterOut
  metadata : Option Metadata
  deriving Repr, DecidableEq

/-- The result of `LayoutService.compute_layout` as the orchestrator
consumes it (`layout.py` `LayoutResult`), here over `ℚ`. -/
structure LayoutResultQ where
  positions : List (Str × ℚ × ℚ)
  clusterPositions : List (ℤ × ℚ × ℚ)

/-- The orchestrator's external collaborators. -/
structure AnalyzerExternals where
  /-- The sentence-transformer `encode` with `normalize_embeddings=True`. -/
  encode : List Str → List (List ℚ)
  /-- The cluster engine's externals. -/
  clusterExt : ClusterExternals
  /-- The TF-IDF vectorizer: `fit_transform` on the corpus plus
  `get_feature_names_out()`. -/
  tfidfFit : List Str → List (List ℚ) × List Str
  /-- `LayoutService.compute_layout` (nodes, edge tuples, labels); its
  numerically interesting overlap pass is modelled separately in §5. -/
  layoutFn : List Risk → List (Str × Str × ℚ) → List ℤ → LayoutResultQ
  /-- `self.nlp._model.get_sentence_embedding_dimension()`. -/
  embedDim : ℕ

/-- `RiskAnalyzer.analyze` (`analyzer.py` lines 50–202): early return on
zero risks; embed (propagating the `ValueError` on all-blank corpora);
cluster with `method="auto"`, no `k`; build similarity edges; lay out;
extract keywords with `top_n=4`; assemble clusters, nodes, membership
edges, and the metadata dictionary. -/
def analyze (ext : AnalyzerExternals) (p : ClusteringParams)
    (simThreshold : ℚ) (maxEdgesPerNode : ℕ) (risks : List Risk) :
    Except String AnalysisResponse :=
  if risks.length = 0 then
    Except.ok { nodes := [], edges := [], clusters := [], metadata := none }
  else
    match embed_risks ext.encode risks with
    | Except.error e => Except.error e
    | Except.ok embeddings =>
      let clusterResult := cluster ext.clusterExt p embeddings "auto".data none
      let similarPairs := find_similar_pairs embeddings simThreshold maxEdgesPerNode
      let simEdges := similarPairs.map (fun t =>
        { source := (risks.getD t.1 default).id
          target := (risks.getD t.2.1 default).id
          weight := t.2.2
          edgeType := "similarity".data : Edge })
      let layoutResult := ext.layoutFn risks
        (simEdges.map (fun e => (e.source, e.target, e.weight)))
        clusterResult.labels
      let texts := risks.map combine_risk_text
      let fitted := ext.tfidfFit texts
      let keywords := extract_keywords fitted.1 fitted.2 clusterResult.labels 4
      let clusters := (sortedUnique clusterResult.labels).map (fun cid =>
        let kw := (keywords.lookup cid).getD []
        let label :=
          if cid = -1 then "Unclustered".data
          else if kw ≠ [] then List.intercalate " / ".data (kw.take 3)
          else "Cluster ".data ++ (toString (cid + 1)).data
        let pos := (layoutResult.clusterPositions.lookup cid).getD (500, 400)
        { id := cid, label := label, keywords := kw
          size := clusterResult.labels.count cid
          x := pos.1, y := pos.2 : ClusterOut })
      let nodes := (List.range risks.length).map (fun i =>
        let r := risks.getD i default
        let pos := (layoutResult.positions.lookup r.id).getD (500, 400)
        { id := r.id, cluster := clusterResult.labels.getD i 0
          x := pos.1, y := pos.2 : NodeOut })
      let membershipEdges := nodes.filterMap (fun nd =>
        if (decide (nd.cluster ≠ -1) && clusters.any (fun c => decide (c.id = nd.cluster))) = true then
          some { source := "cluster_".data ++ (toString nd.cluster).data
                 target := nd.id
                 weight := 3 / 10
                 edgeType := "membership".data : Edge }
        else none)
      Except.ok
        { nodes := nodes
          edges := simEdges ++ membershipEdges
          clusters := clusters
          metadata := some
            { embeddingModel := ext.embedDim
              clusteringMethod := "hdbscan".data
              nNoisePoints := clusterResult.labels.count (-1) } }

/-! ## §5 Layout engine: the overlap-resolution pass — `layout.py`,
`LayoutService.compute_layout`, lines 139–173

The spring solver feeding this pass is an external NetworkX call; the
pass itself is pure geometry and is modelled over `ℝ` (square roots and
trigonometry force exact-real, hence noncomputable, definitions in this
section only).  Position dictionaries are association lists. -/

/-- Dict assignment `m[key] = v` for a key already present (the code only
assigns to keys it just read); a no-op on absent keys. -/
def assocSet (m : List (Str × ℝ × ℝ)) (key : Str) (v : ℝ × ℝ) :
    List (Str × ℝ × ℝ) :=
  m.map (fun p => if p.1 = key then (key, v) else p)

/-- The squared distance between two canvas points (`dx*dx + dy*dy` of
`layout.py` line 158). -/
noncomputable def sqDist (np cp : ℝ × ℝ) : ℝ :=
  (np.1 - cp.1) * (np.1 - cp.1) + (np.2 - cp.2) * (np.2 - cp.2)

/-- The pushed position computed under `if dist < min_distance`
(`layout.py` lines 160–173): the node's own direction scaled to distance
40, or — when the node sits within 0.1 of the cluster position — the
golden-angle direction keyed by the node's index, at distance 40. -/
noncomputable def pushedPos (i : ℕ) (cp np : ℝ × ℝ) : ℝ × ℝ :=
  let dx := np.1 - cp.1
  let dy := np.2 - cp.2
  let dist := Real.sqrt (sqDist np cp)
  let dir : ℝ × ℝ × ℝ :=
    if dist < 0.1 then
      (Real.cos ((i : ℝ) * 2.39996), Real.sin ((i : ℝ) * 2.39996), 1)
    else (dx, dy, dist)
  let scale := 40 / dir.2.2
  (cp.1 + dir.1 * scale, cp.2 + dir.2.1 * scale)

/-- One iteration of the overlap-resolution loop (`layout.py` lines
142–173) for the node at index `i` with id `nodeId`: skip noise nodes,
nodes without a position, and nodes whose cluster has no position;
otherwise reassign the node's position to `pushedPos` when it is closer
than 40 to the cluster position. -/
noncomputable def overlapStep (clusterPos : List (ℤ × ℝ × ℝ))
    (labels : List ℤ) (m : List (Str × ℝ × ℝ)) (i : ℕ) (nodeId : Str) :
    List (Str × ℝ × ℝ) :=
  let cid := labels.getD i (-1)
  if cid = -1 then m
  else
    match m.lookup nodeId with
    | none => m
    | some np =>
      match clusterPos.lookup cid with
      | none => m
      | some cp =>
        if Real.sqrt (sqDist np cp) < 40 then
          assocSet m nodeId (pushedPos i cp np)
        else m

/-- The overlap-resolution loop over `enumerate(nodes)` (`layout.py` line
142), carrying the running index. -/
noncomputable def overlapLoop (clusterPos : List (ℤ × ℝ × ℝ))
    (labels : List ℤ) : ℕ → List Str → List (Str × ℝ × ℝ) →
    List (Str × ℝ × ℝ)
  | _, [], m => m
  | i, nid :: rest, m =>
      overlapLoop clusterPos labels (i + 1) rest
        (overlapStep clusterPos labels m i nid)

/-- The full overlap-resolution pass, starting from the positions the
spring solver produced. -/
noncomputable def overlapResolve (nodeIds : List Str) (labels : List ℤ)
    (clusterPos : List (ℤ × ℝ × ℝ)) (m0 : List (Str × ℝ × ℝ)) :
    List (Str × ℝ × ℝ) :=
  overlapLoop clusterPos labels 0 nodeIds m0

/-! ## Helper lemmas on stripping and whitespace -/

theorem head?_mem {l : Str} {c : Char} (h : l.head? = some c) : c ∈ l := by
  cases l with
  | nil => simp at h
  | cons a t =>
      simp only [List.head?_cons, Option.some.injEq] at h
      subst h; exact List.mem_cons_self _ _

theorem getLast?_mem {l : Str} {c : Char} (h : l.getLast? = some c) : c ∈ l := by
  rw [List.getLast?_eq_some_iff] at h
  obtain ⟨ys, rfl⟩ := h
  simp

theorem dropWhile_eq_self_of_head {p : Char → Bool} {l : Str}
    (h : ∀ c, l.head? = some c → p c = false) : l.dropWhile p = l := by
  cases l with
  | nil => rfl
  | cons a t => simp [List.dropWhile_cons, h a rfl]

/-- Python `strip` fixes a string whose end characters are not
whitespace. -/
theorem pyStrip_eq_self {l : Str}
    (h1 : ∀ c, l.head? = some c → c.isWhitespace = false)
    (h2 : ∀ c, l.getLast? = some c → c.isWhitespace = false) : pyStrip l = l := by
  unfold pyStrip
  rw [dropWhile_eq_self_of_head h1,
    dropWhile_eq_self_of_head (by simpa [List.head?_reverse] using h2),
    List.reverse_reverse]

theorem splitChunks_ne_nil (s : Str) : splitChunks s ≠ [] := by
  cases s with
  | nil => simp [splitChunks]
  | cons c cs =>
      unfold splitChunks
      dsimp only
      split <;> simp

theorem splitChunks_no_ws (s : Str) :
    ∀ w ∈ splitChunks s, ∀ c ∈ w, c.isWhitespace = false := by
  induction s with
  | nil =>
      intro w hw c hc
      simp only [splitChunks, List.mem_singleton] at hw
      subst hw; simp at hc
  | cons a s ih =>
      intro w hw c hc
      obtain ⟨w0, rest, hr⟩ := List.exists_cons_of_ne_nil (splitChunks_ne_nil s)
      unfold splitChunks at hw
      dsimp only at hw
      rw [hr] at hw
      by_cases ha : a.isWhitespace
      · simp only [ha, if_true] at hw
        rcases List.mem_cons.mp hw with h | h
        · subst h; simp at hc
        · exact ih w (hr ▸ h) c hc
      · simp only [ha, if_false, List.headD_cons, List.tail_cons] at hw
        rcases List.mem_cons.mp hw with h | h
        · subst h
          rcases List.mem_cons.mp hc with h' | h'
          · subst h'; simpa using ha
          · exact ih w0 (hr ▸ List.mem_cons_self _ _) c h'
        · exact ih w (hr ▸ List.mem_cons.mpr (Or.inr h)) c hc

theorem pySplit_ne_nil {s : Str} : ∀ w ∈ pySplit s, w ≠ [] := by
  intro w hw
  exact of_decide_eq_true (List.mem_filter.mp hw).2

theorem pySplit_no_ws {s : Str} : ∀ w ∈ pySplit s, ∀ c ∈ w, c.isWhitespace = false :=
  fun w hw => splitChunks_no_ws s w (List.mem_of_mem_filter hw)

theorem head?_intercalate_words {parts : List Str}
    (hne : ∀ w ∈ parts, w ≠ []) {c : Char}
    (h : (List.intercalate [' '] parts).head? = some c) :
    ∃ w ∈ parts, w.head? = some c := by
  induction parts with
  | nil => simp [List.intercalate] at h
  | cons w rest ih =>
      cases rest with
      | nil =>
          refine ⟨w, List.mem_cons_self _ _, ?_⟩
          simpa [List.intercalate] using h
      | cons w' rest' =>
          rw [show List.intercalate [' '] (w :: w' :: rest')
              = w ++ ([' '] ++ List.intercalate [' '] (w' :: rest'))
            from by simp [List.intercalate, List.intersperse]] at h
          rw [List.head?_append] at h
          obtain ⟨a, t, rfl⟩ := List.exists_cons_of_ne_nil (hne w (List.mem_cons_self _ _))
          exact ⟨a :: t, List.mem_cons_self _ _, by simpa using h⟩

theorem intercalate_words_ne_nil {w : Str} {rest : List Str} (hw : w ≠ []) :
    List.intercalate [' '] (w :: rest) ≠ [] := by
  cases rest with
  | nil => simpa [List.intercalate] using hw
  | cons w' rest' =>
      rw [show List.intercalate [' '] (w :: w' :: rest')
          = w ++ ([' '] ++ List.intercalate [' '] (w' :: rest'))
        from by simp [List.intercalate, List.intersperse]]
      simp [hw]

theorem getLast?_intercalate_words {parts : List Str}
    (hne : ∀ w ∈ parts, w ≠ []) {c : Char}
    (h : (List.intercalate [' '] parts).getLast? = some c) :
    ∃ w ∈ parts, w.getLast? = some c := by
  induction parts with
  | nil => simp [List.intercalate] at h
  | cons w rest ih =>
      cases rest with
      | nil =>
          refine ⟨w, List.mem_cons_self _ _, ?_⟩
          simpa [List.intercalate] using h
      | cons w' rest' =>
          rw [show List.intercalate [' '] (w :: w' :: rest')
              = w ++ ([' '] ++ List.intercalate [' '] (w' :: rest'))
            from by simp [List.intercalate, List.intersperse]] at h
          rw [List.getLast?_append, List.getLast?_append] at h
          have hne' : List.intercalate [' '] (w' :: rest') ≠ [] :=
            intercalate_words_ne_nil
              (hne w' (List.mem_cons.mpr (Or.inr (List.mem_cons_self _ _))))
          have hsome : (List.intercalate [' '] (w' :: rest')).getLast?.isSome := by
            cases hg : (List.intercalate [' '] (w' :: rest')).getLast? with
            | none => exact absurd (List.getLast?_eq_none_iff.mp hg) hne'
            | some _ => rfl
          rw [Option.or_of_isSome hsome, Option.or_of_isSome hsome] at h
          obtain ⟨v, hv, hvl⟩ := ih (fun u hu => hne u (List.mem_cons.mpr (Or.inr hu))) h
          exact ⟨v, List.mem_cons.mpr (Or.inr hv), hvl⟩

/-- Joining nonempty words whose end characters are not whitespace gives a
string that `strip` fixes. -/
theorem pyStrip_intercalate_words {parts : List Str}
    (hne : ∀ w ∈ parts, w ≠ [])
    (hh : ∀ w ∈ parts, ∀ c, w.head? = some c → c.isWhitespace = false)
    (hl : ∀ w ∈ parts, ∀ c, w.getLast? = some c → c.isWhitespace = false) :
    pyStrip (List.intercalate [' '] parts) = List.intercalate [' '] parts := by
  apply pyStrip_eq_self
  · intro c hc
    obtain ⟨w, hw, h⟩ := head?_intercalate_words hne hc
    exact hh w hw c h
  · intro c hc
    obtain ⟨w, hw, h⟩ := getLast?_intercalate_words hne hc
    exact hl w hw c h

theorem head?_collapse_not_ws {t : Str} {c : Char}
    (h : (collapseWhitespace t).head? = some c) : c.isWhitespace = false := by
  obtain ⟨w, hw, hwh⟩ := head?_intercalate_words (fun w hw => pySplit_ne_nil w hw) h
  exact pySplit_no_ws w hw c (head?_mem hwh)

theorem getLast?_collapse_not_ws {t : Str} {c : Char}
    (h : (collapseWhitespace t).getLast? = some c) : c.isWhitespace = false := by
  obtain ⟨w, hw, hwl⟩ := getLast?_intercalate_words (fun w hw => pySplit_ne_nil w hw) h
  exact pySplit_no_ws w hw c (getLast?_mem hwl)

/-- `" ".join(text.split())` needs no further stripping. -/
theorem pyStrip_collapse (t : Str) :
    pyStrip (collapseWhitespace t) = collapseWhitespace t :=
  pyStrip_eq_self (fun _ h => head?_collapse_not_ws h)
    (fun _ h => getLast?_collapse_not_ws h)

/-- `clean_text` on a non-sentinel, non-empty input is exactly the
whitespace collapse. -/
theorem cleanText_of_not_sentinel {t : Str}
    (h : ¬(t = [] ∨ strLower t ∈ sentinelValues)) :
    cleanText t = collapseWhitespace t := by
  rw [cleanText, if_neg h, pyStrip_collapse]

theorem codeField2 (t : Str) :
    (if t ≠ [] then (if cleanText t ≠ [] then [cleanText t, cleanText t] else [])
      else []) = amendedFieldParts t 2 := by
  unfold amendedFieldParts
  by_cases h0 : t = []
  · simp [h0]
  · by_cases hs : strLower t ∈ sentinelValues
    · have hct : cleanText t = [] := by rw [cleanText, if_pos (Or.inr hs)]
      simp [h0, hs, hct]
    · have hc : cleanText t = collapseWhitespace t :=
        cleanText_of_not_sentinel (by tauto)
      by_cases hcw : collapseWhitespace t = []
      · simp [h0, hs, hc, hcw]
      · simp [h0, hs, hc, hcw, List.replicate]

theorem codeField1 (t : Str) :
    (if t ≠ [] then (if cleanText t ≠ [] then [cleanText t] else [])
      else []) = amendedFieldParts t 1 := by
  unfold amendedFieldParts
  by_cases h0 : t = []
  · simp [h0]
  · by_cases hs : strLower t ∈ sentinelValues
    · have hct : cleanText t = [] := by rw [cleanText, if_pos (Or.inr hs)]
      simp [h0, hs, hct]
    · have hc : cleanText t = collapseWhitespace t :=
        cleanText_of_not_sentinel (by tauto)
      by_cases hcw : collapseWhitespace t = []
      · simp [h0, hs, hc, hcw]
      · simp [h0, hs, hc, hcw, List.replicate]

theorem amendedFieldParts_mem {t : Str} {copies : ℕ} {w : Str}
    (hw : w ∈ amendedFieldParts t copies) : w = collapseWhitespace t ∧ w ≠ [] := by
  unfold amendedFieldParts at hw
  split at hw
  · simp at hw
  · rename_i h
    push_neg at h
    have hcw := h.2.2
    have := List.eq_of_mem_replicate hw
    exact ⟨this, by rw [this]; exact hcw⟩

/-! ## Theorems for the claims -/

/-- **C6, counterexample.** At the record whose title is `" na "` (a
sentinel surrounded by whitespace) and whose other fields are blank, the
code keeps the title — the sentinel test of `clean_text` runs *before*
any trimming — and returns `"na na"`, while the claim's trimmed-sentinel
canonicalizer returns the empty string. -/
theorem combine_risk_text_trim_counterexample :
    combine_risk_text ⟨"r1".data, some " na ".data, none, []⟩ = "na na".data ∧
    claimCombine ⟨"r1".data, some " na ".data, none, []⟩ = [] := by
  constructor <;> decide

theorem intercalate_eq_nil_iff {parts : List Str}
    (h : ∀ w ∈ parts, w ≠ []) :
    List.intercalate [' '] parts = [] ↔ parts = [] := by
  constructor
  · intro hn
    by_contra hne
    obtain ⟨w0, rest0, rfl⟩ := List.exists_cons_of_ne_nil hne
    exact intercalate_words_ne_nil (h w0 (List.mem_cons_self _ _)) hn
  · rintro rfl; rfl

theorem amendedOptParts_mem {o : Option Str} {k : ℕ} {w : Str}
    (hw : w ∈ optField o (fun t => amendedFieldParts t k)) :
    (∃ t, w = collapseWhitespace t) ∧ w ≠ [] := by
  cases o with
  | none => simp [optField] at hw
  | some t =>
      obtain ⟨he, hn⟩ := @amendedFieldParts_mem t k w hw
      exact ⟨⟨t, he⟩, hn⟩

/-- The three amended part lists a record contributes. -/
def amendedParts (r : Risk) : List Str :=
  optField r.title (fun t => amendedFieldParts t 2) ++
  optField r.cause (fun c => amendedFieldParts c 1) ++
  amendedFieldParts r.description 1

theorem amendedParts_mem {r : Risk} :
    ∀ w ∈ amendedParts r, (∃ t, w = collapseWhitespace t) ∧ w ≠ [] := by
  intro w hw
  rcases List.mem_append.mp hw with hw' | hw'
  · rcases List.mem_append.mp hw' with hw'' | hw''
    · exact amendedOptParts_mem hw''
    · exact amendedOptParts_mem hw''
  · obtain ⟨he, hn⟩ := amendedFieldParts_mem hw'
    exact ⟨⟨_, he⟩, hn⟩

theorem combine_eq_parts (r : Risk) :
    combine_risk_text r = List.intercalate [' '] (amendedParts r) := by
  have htp : optField r.title (fun t =>
      if t ≠ [] then (if cleanText t ≠ [] then [cleanText t, cleanText t] else [])
      else []) = optField r.title (fun t => amendedFieldParts t 2) := by
    cases r.title with
    | none => rfl
    | some t => exact codeField2 t
  have hcp : optField r.cause (fun c =>
      if c ≠ [] then (if cleanText c ≠ [] then [cleanText c] else [])
      else []) = optField r.cause (fun c => amendedFieldParts c 1) := by
    cases r.cause with
    | none => rfl
    | some c => exact codeField1 c
  have hdp : (if r.description ≠ [] then
        (if cleanText r.description ≠ [] then [cleanText r.description] else [])
      else ([] : List Str)) = amendedFieldParts r.description 1 :=
    codeField1 r.description
  show pyStrip (List.intercalate [' '] _) = _
  rw [htp, hcp, hdp]
  refine pyStrip_intercalate_words (fun w hw => (amendedParts_mem w hw).2) ?_ ?_
  · intro w hw c hc
    obtain ⟨⟨t, rfl⟩, -⟩ := amendedParts_mem w hw
    exact head?_collapse_not_ws hc
  · intro w hw c hc
    obtain ⟨⟨t, rfl⟩, -⟩ := amendedParts_mem w hw
    exact getLast?_collapse_not_ws hc

theorem combine_eq_amendedCombine (r : Risk) :
    combine_risk_text r = amendedCombine r :=
  combine_eq_parts r

/-- The canonicalizer's output needs no further stripping. -/
theorem pyStrip_combine (r : Risk) :
    pyStrip (combine_risk_text r) = combine_risk_text r := by
  rw [combine_eq_parts r]
  exact pyStrip_intercalate_words (fun w hw => (amendedParts_mem w hw).2)
    (fun w hw c hc => by
      obtain ⟨⟨t, rfl⟩, -⟩ := amendedParts_mem w hw
      exact head?_collapse_not_ws hc)
    (fun w hw c hc => by
      obtain ⟨⟨t, rfl⟩, -⟩ := amendedParts_mem w hw
      exact getLast?_collapse_not_ws hc)

/-- **C6, amended.** For every record, the canonicalizer drops each field
whose value is absent, empty, all-whitespace, or case-insensitively
exactly (without trimming) one of the sentinels `{"na","n/a","nan",
"none"}`; collapses internal whitespace of the kept fields to single
spaces; concatenates them space-separated in the order title, title,
cause, description; and produces the empty string exactly when every
field is dropped. -/
theorem combine_risk_text_matches_amended (r : Risk) :
    combine_risk_text r = amendedCombine r ∧
    (combine_risk_text r = [] ↔
      optField r.title (fun t => amendedFieldParts t 2) = [] ∧
      optField r.cause (fun c => amendedFieldParts c 1) = [] ∧
      amendedFieldParts r.description 1 = []) := by
  refine ⟨combine_eq_amendedCombine r, ?_⟩
  rw [combine_eq_parts r,
    intercalate_eq_nil_iff (fun w hw => (amendedParts_mem w hw).2)]
  simp [amendedParts, List.append_eq_nil, and_assoc]

/-! ## Concrete externals used by the witnesses -/

/-- A concrete, contract-abiding instantiation of the cluster engine's
external collaborators, used by witnesses: HDBSCAN labels everything
noise, K-Means assigns labels round-robin. -/
def trivialClusterExt : ClusterExternals where
  umapReduce := fun E _ _ => E
  hdbscanFit := fun _ _ E => (List.replicate E.length (-1), List.replicate E.length 0)
  kmeansFit := fun E k =>
    if k = 0 then [] else (List.range E.length).map (fun i => ((i % k : ℕ) : ℤ))
  kmeansTransform := fun E k => E.map (fun _ => List.replicate k 0)
  kmeansFit5 := fun E k =>
    if k = 0 then [] else (List.range E.length).map (fun i => ((i % k : ℕ) : ℤ))
  silhouette := fun _ _ => 0

/-- A concrete instantiation of the orchestrator's externals, used by
witnesses: every text embeds to the unit vector `[1]`. -/
def trivialAnalyzerExt : AnalyzerExternals where
  encode := fun ts => ts.map (fun _ => [1])
  clusterExt := trivialClusterExt
  tfidfFit := fun ts => (ts.map (fun _ => [1]), [['k']])
  layoutFn := fun _ _ _ => ⟨[], []⟩
  embedDim := 1

/-- Three one-letter risks, enough to clear the small-sample override. -/
def risks3 : List Risk :=
  [⟨"r1".data, none, none, "a".data⟩,
   ⟨"r2".data, none, none, "b".data⟩,
   ⟨"r3".data, none, none, "c".data⟩]

instance : Inhabited AnalysisResponse := ⟨⟨[], [], [], none⟩⟩

/-- The concrete response `analyze` produces on `risks3` under
`trivialAnalyzerExt` (the fallback scenario of the C2 witness). -/
def respC2 : AnalysisResponse :=
  (analyze trivialAnalyzerExt {} 2 5 risks3).toOption.getD default

/-- Its metadata. -/
def mC2 : Metadata := respC2.metadata.getD ⟨0, [], 0⟩

/-! ## C9: the small-sample override -/

/-- **C9.** For every embedding matrix with fewer than 3 rows, `cluster`
returns all-zero labels, all-one confidences, and `n_clusters = 1`; the
list of strategies run is empty (the result is the same whatever the
external clustering collaborators would do, as the statement quantifies
over them). -/
theorem cluster_small_sample (ext : ClusterExternals) (p : ClusteringParams)
    (E : List (List ℚ)) (method : Str) (kOpt : Option ℕ)
    (h : E.length < 3) :
    cluster ext p E method kOpt =
      { labels := List.replicate E.length 0
        probabilities := List.replicate E.length 1
        nClusters := 1 } ∧
    clusterMethodsRun ext p E method kOpt = [] := by
  constructor
  · unfold cluster
    rw [if_pos h]
  · unfold clusterMethodsRun
    rw [if_pos h]

/-- **C9, witness.** -/
theorem cluster_small_sample_witness :
    cluster trivialClusterExt {} [[(1 : ℚ)], [2]] "auto".data none =
      { labels := [0, 0], probabilities := [1, 1], nClusters := 1 } ∧
    clusterMethodsRun trivialClusterExt {} [[(1 : ℚ)], [2]] "auto".data none = [] := by
  simpa [List.replicate] using
    cluster_small_sample trivialClusterExt {} [[(1 : ℚ)], [2]] "auto".data none
      (by decide)

/-! ## C1: the automatic K-Means fallback -/

/-- **C1.** With method `"auto"` and no `k`, on a matrix of at least 3
rows: whenever HDBSCAN's result has fewer than 2 non-noise clusters or
strictly more than half the points labeled noise, `cluster` returns
exactly the K-Means fallback result; under the scikit-learn contract
that K-Means labels lie in `[0, k)` (stated for the one fit the call
makes), that result contains no `-1`, its `n_clusters` is the `k` the
silhouette search chose, and the strategy trace runs the fallback at
most once. -/
theorem cluster_auto_fallback (ext : ClusterExternals) (p : ClusteringParams)
    (E : List (List ℚ))
    (h3 : 3 ≤ E.length)
    (hkm : ∀ l ∈ ext.kmeansFit E (find_optimal_k ext E),
      0 ≤ l ∧ l < (find_optimal_k ext E : ℤ))
    (hpoor : (cluster_hdbscan ext (adjustParams p E.length) E).nClusters < 2 ∨
      (E.length : ℚ) * (1 / 2) <
        ((cluster_hdbscan ext (adjustParams p E.length) E).labels.count (-1) : ℚ)) :
    cluster ext p E "auto".data none = cluster_kmeans ext E none ∧
    (-1 : ℤ) ∉ (cluster ext p E "auto".data none).labels ∧
    (cluster ext p E "auto".data none).nClusters = find_optimal_k ext E ∧
    (clusterMethodsRun ext p E "auto".data none).count "kmeans".data ≤ 1 := by
  have hn : ¬ E.length < 3 := by omega
  have heq : cluster ext p E "auto".data none = cluster_kmeans ext E none := by
    unfold cluster
    rw [if_neg hn, if_neg (by decide), if_pos hpoor]
  have hlab : (cluster_kmeans ext E none).labels =
      ext.kmeansFit E (find_optimal_k ext E) := rfl
  refine ⟨heq, ?_, ?_, ?_⟩
  · rw [heq, hlab]
    intro hmem
    have h := (hkm _ hmem).1
    omega
  · rw [heq]; rfl
  · unfold clusterMethodsRun
    rw [if_neg hn, if_neg (by decide), if_pos hpoor]
    decide

/-- **C1, witness.** A 3-row matrix on which the trivial HDBSCAN labels
everything noise, forcing the fallback. -/
theorem cluster_auto_fallback_witness :
    cluster trivialClusterExt {} [[(0 : ℚ)], [1], [2]] "auto".data none =
      cluster_kmeans trivialClusterExt [[(0 : ℚ)], [1], [2]] none ∧
    (-1 : ℤ) ∉ (cluster trivialClusterExt {} [[(0 : ℚ)], [1], [2]] "auto".data none).labels ∧
    (cluster trivialClusterExt {} [[(0 : ℚ)], [1], [2]] "auto".data none).nClusters =
      find_optimal_k trivialClusterExt [[(0 : ℚ)], [1], [2]] ∧
    (clusterMethodsRun trivialClusterExt {} [[(0 : ℚ)], [1], [2]] "auto".data
      none).count "kmeans".data ≤ 1 :=
  cluster_auto_fallback trivialClusterExt {} [[(0 : ℚ)], [1], [2]]
    (by decide) (by decide) (by decide)

/-! ## C2: the metadata's clustering method (code bug) -/

/-- **C2 (code bug).** `analyzer.py` line 199 hardcodes
`"clustering_method": "hdbscan"`.  Even on a request whose clustering
demonstrably ran the K-Means fallback (the strategy trace of the very
matrix `analyze` embeds counts one `"kmeans"` run), the successful
response's metadata still names `"hdbscan"` — the claim that the
metadata reports the method actually used is the code's clear intent
(the field is named `clustering_method` and the service advertises the
fallback), but no information about the method used flows into the
response. -/
theorem analyze_metadata_method_bug (ext : AnalyzerExternals)
    (p : ClusteringParams) (t : ℚ) (k : ℕ) (risks : List Risk)
    (resp : AnalysisResponse) (m : Metadata) (M : List (List ℚ))
    (hemb : embed_risks ext.encode risks = Except.ok M)
    (hfall : (clusterMethodsRun ext.clusterExt p M "auto".data none).count
      "kmeans".data = 1)
    (hok : analyze ext p t k risks = Except.ok resp)
    (hm : resp.metadata = some m) :
    m.clusteringMethod = "hdbscan".data ∧
    "hdbscan".data ≠ "kmeans".data := by
  refine ⟨?_, by decide⟩
  by_cases hz : risks.length = 0
  · unfold analyze at hok
    rw [if_pos hz] at hok
    cases hok
    simp at hm
  · unfold analyze at hok
    rw [if_neg hz, hemb] at hok
    cases hok
    simp only [Option.some.injEq] at hm
    rw [← hm]

/-- **C2, witness.** The concrete fallback scenario: three distinct
one-letter risks, every text embedding to `[1]`, HDBSCAN labelling all
noise. -/
theorem analyze_metadata_method_bug_witness :
    analyze trivialAnalyzerExt {} 2 5 risks3 = Except.ok respC2 ∧
    respC2.metadata = some mC2 ∧
    mC2.clusteringMethod = "hdbscan".data ∧
    "hdbscan".data ≠ "kmeans".data := by
  refine ⟨rfl, rfl, ?_⟩
  exact analyze_metadata_method_bug trivialAnalyzerExt {} 2 5 risks3 respC2 mC2
    [[1], [1], [1]] rfl (by decide) rfl rfl

/-! ## C4: the K-Means fallback confidence formula -/

theorem le_foldl_max (l : List ℚ) (a : ℚ) :
    a ≤ l.foldl max a ∧ ∀ x ∈ l, x ≤ l.foldl max a := by
  induction l generalizing a with
  | nil => exact ⟨le_refl a, by simp⟩
  | cons b t ih =>
      obtain ⟨h1, h2⟩ := ih (max a b)
      refine ⟨le_trans (le_max_left a b) h1, ?_⟩
      intro x hx
      rcases List.mem_cons.mp hx with rfl | hx
      · exact le_trans (le_max_right a x) h1
      · exact h2 x hx

theorem le_listMax {x : ℚ} {l : List ℚ} (h : x ∈ l) : x ≤ listMax l := by
  cases l with
  | nil => simp at h
  | cons a t =>
      rcases List.mem_cons.mp h with rfl | hx
      · exact (le_foldl_max t x).1
      · exact (le_foldl_max t a).2 x hx

theorem foldl_min_nonneg {l : List ℚ} {a : ℚ} (ha : 0 ≤ a)
    (h : ∀ x ∈ l, 0 ≤ x) : 0 ≤ l.foldl min a := by
  induction l generalizing a with
  | nil => exact ha
  | cons b t ih =>
      exact ih (le_min ha (h b (List.mem_cons_self _ _)))
        (fun x hx => h x (List.mem_cons.mpr (Or.inr hx)))

theorem listMin_nonneg {l : List ℚ} (h : ∀ x ∈ l, 0 ≤ x) : 0 ≤ listMin l := by
  cases l with
  | nil => exact le_refl 0
  | cons a t =>
      exact foldl_min_nonneg (h a (List.mem_cons_self _ _))
        (fun x hx => h x (List.mem_cons.mpr (Or.inr hx)))

/-- The concrete KMeans fit behind the C4 counterexample: the 1-D points
`0, 1, 10, 11` with `k = 2` have the Lloyd fixed point with centroids
`1/2` and `21/2`; the label assignment and the `transform` distance
matrix below are exactly scikit-learn's for that fit. -/
def c4Ext : ClusterExternals :=
  { trivialClusterExt with
    kmeansFit := fun _ _ => [0, 0, 1, 1]
    kmeansTransform := fun _ _ =>
      [[1/2, 21/2], [1/2, 19/2], [19/2, 1/2], [21/2, 1/2]] }

/-- **C4, counterexample.** On the 1-D embedding `[[0],[1],[10],[11]]`
with `k = 2`, the code's confidence for point 0 is
`1 - (1/2)/((1/2) + 1e-10)` (essentially 0), while the claim's formula —
own-centroid distance over the maximum distance to *any* centroid across
all points — gives `1 - (1/2)/(21/2) = 20/21`. -/
theorem cluster_kmeans_confidence_counterexample :
    (cluster_kmeans c4Ext [[(0 : ℚ)], [1], [10], [11]] (some 2)).probabilities.getD 0 0 ≠
      claimKmeansConfidence
        (c4Ext.kmeansTransform [[(0 : ℚ)], [1], [10], [11]] 2)
        ((cluster_kmeans c4Ext [[(0 : ℚ)], [1], [10], [11]] (some 2)).labels) 0 := by
  norm_num [cluster_kmeans, kmeansChosenK, c4Ext, trivialClusterExt,
    claimKmeansConfidence, listMin, listMax]

/-- **C4, amended.** The confidence of each point equals
`1 − d_i / (max_j d_j + 1e-10)`, where `d_i` is the point's distance to
its *own* centroid (equal, by the scikit-learn nearest-centroid contract
stated as a hypothesis, to its minimum distance over centroids) and the
maximum ranges over the points' own-centroid distances — not over all
point-to-centroid distances; the value always lies in `[0, 1]` with no
explicit clamping. -/
theorem cluster_kmeans_confidence_amended (ext : ClusterExternals)
    (E : List (List ℚ)) (kOpt : Option ℕ) (i : ℕ)
    (hi : i < (ext.kmeansTransform E (kmeansChosenK ext E kOpt)).length)
    (hnn : ∀ row ∈ ext.kmeansTransform E (kmeansChosenK ext E kOpt),
      ∀ x ∈ row, 0 ≤ x)
    (hargmin : ((ext.kmeansTransform E (kmeansChosenK ext E kOpt)).getD i []).getD
        ((ext.kmeansFit E (kmeansChosenK ext E kOpt)).getD i 0).toNat 0 =
      listMin ((ext.kmeansTransform E (kmeansChosenK ext E kOpt)).getD i [])) :
    (cluster_kmeans ext E kOpt).probabilities.getD i 0 =
      1 - ((ext.kmeansTransform E (kmeansChosenK ext E kOpt)).getD i []).getD
            ((cluster_kmeans ext E kOpt).labels.getD i 0).toNat 0 /
          (listMax ((ext.kmeansTransform E (kmeansChosenK ext E kOpt)).map listMin)
            + 1 / 10 ^ 10) ∧
    0 ≤ (cluster_kmeans ext E kOpt).probabilities.getD i 0 ∧
    (cluster_kmeans ext E kOpt).probabilities.getD i 0 ≤ 1 := by
  set D := ext.kmeansTransform E (kmeansChosenK ext E kOpt) with hD
  have hi' : i < D.length := hi
  have hgetD : D.getD i [] = D[i] := by
    rw [List.getD_eq_getElem?_getD, List.getElem?_eq_getElem hi']
    rfl
  have hmem : D.getD i [] ∈ D := by
    rw [hgetD]; exact List.getElem_mem hi'
  have hprob : (cluster_kmeans ext E kOpt).probabilities.getD i 0
      = 1 - listMin (D.getD i []) /
          (listMax (D.map listMin) + 1 / 10 ^ 10) := by
    show ((D.map listMin).map
        (fun d => 1 - d / (listMax (D.map listMin) + 1 / 10 ^ 10))).getD i 0 = _
    rw [List.getD_eq_getElem?_getD, List.getElem?_map, List.getElem?_map,
      List.getElem?_eq_getElem hi', hgetD]
    rfl
  have hlabels : (cluster_kmeans ext E kOpt).labels
      = ext.kmeansFit E (kmeansChosenK ext E kOpt) := rfl
  have hd0 : 0 ≤ listMin (D.getD i []) :=
    listMin_nonneg (hnn (D.getD i []) hmem)
  have hdM : listMin (D.getD i []) ≤ listMax (D.map listMin) :=
    le_listMax (List.mem_map_of_mem listMin hmem)
  have hden : (0 : ℚ) < listMax (D.map listMin) + 1 / 10 ^ 10 := by
    have : (0 : ℚ) < 1 / 10 ^ 10 := by norm_num
    linarith
  have hdiv0 : 0 ≤ listMin (D.getD i []) /
      (listMax (D.map listMin) + 1 / 10 ^ 10) :=
    div_nonneg hd0 (le_of_lt hden)
  have hdiv1 : listMin (D.getD i []) /
      (listMax (D.map listMin) + 1 / 10 ^ 10) ≤ 1 := by
    rw [div_le_one hden]
    have : (0 : ℚ) < 1 / 10 ^ 10 := by norm_num
    linarith
  refine ⟨?_, ?_, ?_⟩
  · rw [hprob, hlabels, hargmin]
  · rw [hprob]; linarith
  · rw [hprob]; linarith

/-- **C4, witness** for the amended theorem, at the counterexample's
concrete fit. -/
theorem cluster_kmeans_confidence_amended_witness :
    (cluster_kmeans c4Ext [[(0 : ℚ)], [1], [10], [11]] (some 2)).probabilities.getD 0 0 =
      1 - ((c4Ext.kmeansTransform [[(0 : ℚ)], [1], [10], [11]]
            (kmeansChosenK c4Ext [[(0 : ℚ)], [1], [10], [11]] (some 2))).getD 0 []).getD
          ((cluster_kmeans c4Ext [[(0 : ℚ)], [1], [10], [11]]
            (some 2)).labels.getD 0 0).toNat 0 /
        (listMax ((c4Ext.kmeansTransform [[(0 : ℚ)], [1], [10], [11]]
            (kmeansChosenK c4Ext [[(0 : ℚ)], [1], [10], [11]] (some 2))).map listMin)
          + 1 / 10 ^ 10) ∧
    0 ≤ (cluster_kmeans c4Ext [[(0 : ℚ)], [1], [10], [11]] (some 2)).probabilities.getD 0 0 ∧
    (cluster_kmeans c4Ext [[(0 : ℚ)], [1], [10], [11]] (some 2)).probabilities.getD 0 0 ≤ 1 :=
  cluster_kmeans_confidence_amended c4Ext [[(0 : ℚ)], [1], [10], [11]] (some 2) 0
    (by norm_num [c4Ext, trivialClusterExt, kmeansChosenK])
    (by norm_num [c4Ext, trivialClusterExt, kmeansChosenK])
    (by norm_num [c4Ext, trivialClusterExt, kmeansChosenK, listMin])

/-! ## C10: zero rows for blank records in `embed_risks` -/

theorem dot_replicate_zero_left (d : ℕ) (v : List ℚ) :
    dot (List.replicate d 0) v = 0 := by
  induction d generalizing v with
  | zero => rfl
  | succ n ih =>
      cases v with
      | nil => rfl
      | cons x xs =>
          have := ih xs
          simp only [dot, List.replicate_succ, List.zipWith_cons_cons,
            List.sum_cons] at this ⊢
          rw [zero_mul, zero_add, this]

theorem dot_comm (u v : List ℚ) : dot u v = dot v u := by
  unfold dot
  rw [List.zipWith_comm_of_comm]
  intro a b
  exact mul_comm a b

theorem dot_replicate_zero_right (d : ℕ) (v : List ℚ) :
    dot v (List.replicate d 0) = 0 := by
  rw [dot_comm]
  exact dot_replicate_zero_left d v

theorem getD_map_range {α : Type} {n i : ℕ} (h : i < n) (f : ℕ → α) (d : α) :
    ((List.range n).map f).getD i d = f i := by
  rw [List.getD_eq_getElem?_getD, List.getElem?_map, List.getElem?_range h]
  rfl

theorem getD_mem_of_lt {l : List (List ℚ)} {pos : ℕ} (h : pos < l.length)
    (d : List ℚ) : l.getD pos d ∈ l := by
  rw [List.getD_eq_getElem?_getD, List.getElem?_eq_getElem h]
  exact List.getElem_mem h

theorem indexOf?_of_mem {l : List ℕ} {a : ℕ} (h : a ∈ l) :
    ∃ pos, l.indexOf? a = some pos ∧ pos < l.length := by
  induction l with
  | nil => simp at h
  | cons x xs ih =>
      by_cases hxa : x = a
      · exact ⟨0, by simp [List.indexOf?_cons, hxa], by simp⟩
      · rcases List.mem_cons.mp h with h' | h'
        · exact absurd h'.symm hxa
        · obtain ⟨pos, hpos, hlt⟩ := ih h'
          refine ⟨pos + 1, ?_, by simpa using Nat.succ_lt_succ hlt⟩
          simp [List.indexOf?_cons, beq_false_of_ne hxa, hpos]

/-- **C10.** Under the embedding model's contract (one unit-norm row per
input text), `embed_risks` on a corpus with at least one non-blank record
does not raise: it returns one row per record in input order, where each
blank-canonicalizing record receives the all-zero row — whose dot product
with every row, itself included, is 0, so it is not unit-norm — while
each non-blank record's row is unit-norm. -/
theorem embed_risks_mixed_blanks (encode : List Str → List (List ℚ))
    (risks : List Risk)
    (hlen : ∀ ts, (encode ts).length = ts.length)
    (hnorm : ∀ ts, ∀ v ∈ encode ts, dot v v = 1)
    (hsome : ∃ r ∈ risks, combine_risk_text r ≠ []) :
    ∃ M, embed_risks encode risks = Except.ok M ∧
      M.length = risks.length ∧
      ∀ i, i < risks.length →
        (combine_risk_text (risks.getD i default) = [] →
          (∀ x ∈ M.getD i [], x = 0) ∧
          dot (M.getD i []) (M.getD i []) = 0 ∧
          (∀ j, simEntry M i j = 0 ∧ simEntry M j i = 0)) ∧
        (combine_risk_text (risks.getD i default) ≠ [] →
          dot (M.getD i []) (M.getD i []) = 1) := by
  have htexts : ∀ i, i < risks.length →
      (risks.map combine_risk_text).getD i [] =
        combine_risk_text (risks.getD i default) := by
    intro i hi
    rw [List.getD_eq_getElem?_getD, List.getElem?_map,
      List.getElem?_eq_getElem hi, List.getD_eq_getElem?_getD,
      List.getElem?_eq_getElem hi]
    rfl
  have hvmem : ∀ i, i ∈ (List.range risks.length).filter
      (fun i => pyStrip ((risks.map combine_risk_text).getD i []) ≠ []) ↔
      (i < risks.length ∧ combine_risk_text (risks.getD i default) ≠ []) := by
    intro i
    rw [List.mem_filter, List.mem_range]
    constructor
    · rintro ⟨hi, hp⟩
      refine ⟨hi, ?_⟩
      have := of_decide_eq_true hp
      rw [htexts i hi, pyStrip_combine] at this
      exact this
    · rintro ⟨hi, hc⟩
      refine ⟨hi, decide_eq_true ?_⟩
      rw [htexts i hi, pyStrip_combine]
      exact hc
  have hne : ((List.range risks.length).filter
      (fun i => pyStrip ((risks.map combine_risk_text).getD i []) ≠ [])).map
        (fun i => (risks.map combine_risk_text).getD i []) ≠ [] := by
    obtain ⟨r, hr, hrc⟩ := hsome
    obtain ⟨i, hi, hget⟩ := List.getElem_of_mem hr
    have hidef : risks.getD i default = r := by
      rw [List.getD_eq_getElem?_getD, List.getElem?_eq_getElem hi]
      exact hget
    have himem : i ∈ (List.range risks.length).filter
        (fun i => pyStrip ((risks.map combine_risk_text).getD i []) ≠ []) :=
      (hvmem i).mpr ⟨hi, by rw [hidef]; exact hrc⟩
    exact List.ne_nil_of_mem (List.mem_map_of_mem _ himem)
  obtain ⟨M, hMeq⟩ : ∃ M, embed_risks encode risks = Except.ok M := by
    simp only [embed_risks]
    rw [if_neg hne]
    exact ⟨_, rfl⟩
  have hMdef := hMeq
  simp only [embed_risks] at hMdef
  rw [if_neg hne] at hMdef
  have hM := Except.ok.inj hMdef
  refine ⟨M, hMeq, ?_, ?_⟩
  · rw [← hM]; simp
  · rw [← hM]
    intro i hi
    constructor
    · intro hblank
      have hnotmem : i ∉ (List.range risks.length).filter
          (fun i => pyStrip ((risks.map combine_risk_text).getD i []) ≠ []) := by
        intro hmem
        exact ((hvmem i).mp hmem).2 hblank
      have hnone : ((List.range risks.length).filter
          (fun i => pyStrip ((risks.map combine_risk_text).getD i []) ≠ [])).indexOf? i
            = none := by
        rw [List.indexOf?_eq_none_iff]
        intro x hx hbeq
        exact hnotmem (by rwa [show x = i from by simpa using hbeq] at hx)
      rw [getD_map_range hi]
      rw [hnone]
      refine ⟨?_, ?_, ?_⟩
      · intro x hx
        exact (List.eq_of_mem_replicate hx)
      · exact dot_replicate_zero_left _ _
      · intro j
        constructor
        · show dot _ _ = 0
          rw [getD_map_range hi, hnone]
          exact dot_replicate_zero_left _ _
        · show dot _ _ = 0
          rw [getD_map_range hi, hnone]
          exact dot_replicate_zero_right _ _
    · intro hval
      have hmem : i ∈ (List.range risks.length).filter
          (fun i => pyStrip ((risks.map combine_risk_text).getD i []) ≠ []) :=
        (hvmem i).mpr ⟨hi, hval⟩
      obtain ⟨pos, hpos, hplt⟩ := indexOf?_of_mem hmem
      rw [getD_map_range hi, hpos]
      have hplt' : pos < (encode (((List.range risks.length).filter
          (fun i => pyStrip ((risks.map combine_risk_text).getD i []) ≠ [])).map
            (fun i => (risks.map combine_risk_text).getD i []))).length := by
        rw [hlen]
        simpa using hplt
      exact hnorm _ _ (getD_mem_of_lt hplt' _)

/-- **C10, witness.** One blank record and one real record; the encoder
maps every text to the unit vector `[1]`. -/
theorem embed_risks_mixed_blanks_witness :
    ∃ M, embed_risks (fun ts => ts.map (fun _ => [1]))
        [⟨"r1".data, none, none, []⟩, ⟨"r2".data, none, none, "b".data⟩] =
      Except.ok M ∧
      M.length = 2 ∧
      ∀ i, i < 2 →
        (combine_risk_text (([⟨"r1".data, none, none, []⟩,
            ⟨"r2".data, none, none, "b".data⟩] : List Risk).getD i default) = [] →
          (∀ x ∈ M.getD i [], x = 0) ∧
          dot (M.getD i []) (M.getD i []) = 0 ∧
          (∀ j, simEntry M i j = 0 ∧ simEntry M j i = 0)) ∧
        (combine_risk_text (([⟨"r1".data, none, none, []⟩,
            ⟨"r2".data, none, none, "b".data⟩] : List Risk).getD i default) ≠ [] →
          dot (M.getD i []) (M.getD i []) = 1) := by
  have h := embed_risks_mixed_blanks (fun ts => ts.map (fun _ => [1]))
    [⟨"r1".data, none, none, []⟩, ⟨"r2".data, none, none, "b".data⟩]
    (fun ts => by simp)
    (fun ts v hv => by
      obtain ⟨t, ht, rfl⟩ := List.mem_map.mp hv
      norm_num [dot])
    ⟨⟨"r2".data, none, none, "b".data⟩, by decide, by decide⟩
  simpa using h

/-! ## C7: keyword extraction -/

instance (v : List ℚ) : IsTotal ℕ (rankAsc v) := by
  constructor
  intro a b
  unfold rankAsc
  rcases lt_trichotomy (v.getD a 0) (v.getD b 0) with h | h | h
  · exact Or.inl (Or.inl h)
  · rcases Nat.le_total a b with hab | hab
    · exact Or.inl (Or.inr ⟨h, hab⟩)
    · exact Or.inr (Or.inr ⟨h.symm, hab⟩)
  · exact Or.inr (Or.inl h)

instance (v : List ℚ) : IsTrans ℕ (rankAsc v) := by
  constructor
  intro a b c hab hbc
  unfold rankAsc at *
  rcases hab with h1 | ⟨h1, h1'⟩ <;> rcases hbc with h2 | ⟨h2, h2'⟩
  · exact Or.inl (lt_trans h1 h2)
  · exact Or.inl (h2 ▸ h1)
  · exact Or.inl (h1 ▸ h2)
  · exact Or.inr ⟨h1.trans h2, h1'.trans h2'⟩

instance (v : List ℚ) : IsTotal ℕ (rankDesc v) := by
  constructor
  intro a b
  rcases (inferInstance : IsTotal ℕ (rankAsc v)).total b a with h | h
  · exact Or.inl h
  · exact Or.inr h

instance (v : List ℚ) : IsTrans ℕ (rankDesc v) := by
  constructor
  intro a b c hab hbc
  exact (inferInstance : IsTrans ℕ (rankAsc v)).trans c b a hbc hab

instance (v : List ℚ) : IsAntisymm ℕ (rankDesc v) := by
  constructor
  intro a b hab hba
  rcases hab with h1 | ⟨h1, h1'⟩ <;> rcases hba with h2 | ⟨h2, h2'⟩
  · exact absurd (lt_trans h1 h2) (lt_irrefl _)
  · exact absurd (h2 ▸ h1) (lt_irrefl _)
  · exact absurd (h1 ▸ h2) (lt_irrefl _)
  · exact Nat.le_antisymm h2' h1'

/-- Reversing the stable ascending argsort yields exactly the descending
sort with ties by descending index. -/
theorem argsortAsc_reverse (v : List ℚ) :
    (argsortAsc v).reverse =
      List.insertionSort (rankDesc v) (List.range v.length) := by
  refine @List.eq_of_perm_of_sorted _ (rankDesc v) _ _ _ ?_ ?_ ?_
  · exact ((List.reverse_perm _).trans
      (List.perm_insertionSort _ _)).trans
      (List.perm_insertionSort (rankDesc v) _).symm
  · rw [List.Sorted, List.pairwise_reverse]
    exact List.sorted_insertionSort (rankAsc v) (List.range v.length)
  · exact List.sorted_insertionSort _ _

theorem lookup_map_pair {f : ℤ → List Str} {l : List ℤ} {a : ℤ} (ha : a ∈ l) :
    (l.map (fun x => (x, f x))).lookup a = some (f a) := by
  induction l with
  | nil => simp at ha
  | cons x xs ih =>
      by_cases hax : a = x
      · subst hax
        simp [List.lookup]
      · rcases List.mem_cons.mp ha with h | h
        · exact absurd h hax
        · simpa [List.lookup, beq_false_of_ne hax] using ih h

/-- **C7, counterexample.** With one text whose two terms tie in averaged
weight, the code returns the lexicographically *later* term first
(`["bb","aa"]`), while the claim's lexicographic tie-break would return
`["aa","bb"]`: `np.argsort` is ascending with ties in index order, and
reversing it flips the tie order. -/
theorem extract_keywords_tie_counterexample :
    extract_keywords [[1, 1]] ["aa".data, "bb".data] [0] 2 =
      [(0, ["bb".data, "aa".data])] ∧
    claimTopTerms (colMean [[(1 : ℚ), 1]] 2) ["aa".data, "bb".data] 2 =
      ["aa".data, "bb".data] ∧
    (["bb".data, "aa".data] : List Str) ≠ ["aa".data, "bb".data] := by
  refine ⟨?_, ?_, by decide⟩
  · norm_num [extract_keywords, keywordsForLabel, sortedUnique, colMean,
      argsortAsc, rankAsc, List.insertionSort, List.orderedInsert, List.dedup,
      List.range_succ, Function.comp]
  · norm_num [claimTopTerms, claimRank, colMean,
      List.insertionSort, List.orderedInsert, List.range_succ, Function.comp]

/-- **C7, amended.** `extract_keywords` maps the noise label `-1`
(whenever it occurs) to exactly `["unclustered"]` regardless of the
texts, and maps every other occurring label to the top-`n` terms ranked
descending by the cluster-averaged weight with ties broken by
*descending* term order (reverse lexicographic, the feature names being
sorted): the reverse of numpy's stable ascending argsort. -/
theorem extract_keywords_amended (tfidf : List (List ℚ))
    (featureNames : List Str) (labels : List ℤ) (top_n : ℕ) :
    ((-1 : ℤ) ∈ labels →
      (extract_keywords tfidf featureNames labels top_n).lookup (-1) =
        some ["unclustered".data]) ∧
    (∀ label ∈ labels, label ≠ -1 →
      (extract_keywords tfidf featureNames labels top_n).lookup label =
        some (amendedTopTerms
          (colMean (((List.range labels.length).filter
              (fun i => labels.getD i 0 = label)).map (fun i => tfidf.getD i []))
            featureNames.length)
          featureNames top_n)) := by
  have hmemu : ∀ a : ℤ, a ∈ labels → a ∈ sortedUnique labels := by
    intro a ha
    unfold sortedUnique
    rw [List.mem_insertionSort, List.mem_dedup]
    exact ha
  constructor
  · intro hm
    rw [extract_keywords, lookup_map_pair (hmemu _ hm)]
    rw [keywordsForLabel, if_pos rfl]
  · intro label hl hne
    rw [extract_keywords, lookup_map_pair (hmemu _ hl)]
    rw [keywordsForLabel, if_neg hne]
    have hidx : (List.range labels.length).filter
        (fun i => labels.getD i 0 = label) ≠ [] := by
      obtain ⟨i, hi, hget⟩ := List.getElem_of_mem hl
      have hin : i ∈ (List.range labels.length).filter
          (fun i => labels.getD i 0 = label) := by
        rw [List.mem_filter]
        refine ⟨List.mem_range.mpr hi, ?_⟩
        rw [List.getD_eq_getElem?_getD, List.getElem?_eq_getElem hi]
        simpa using hget
      exact List.ne_nil_of_mem hin
    rw [if_neg hidx]
    rw [amendedTopTerms, ← argsortAsc_reverse]

/-- **C7, witness** for the amended theorem: noise plus one real label. -/
theorem extract_keywords_amended_witness :
    (extract_keywords [[1, 1], [2, 0]] ["aa".data, "bb".data] [-1, 0] 1).lookup (-1) =
      some ["unclustered".data] ∧
    (extract_keywords [[1, 1], [2, 0]] ["aa".data, "bb".data] [-1, 0] 1).lookup 0 =
      some (amendedTopTerms
        (colMean (((List.range ([(-1 : ℤ), 0].length)).filter
            (fun i => [(-1 : ℤ), 0].getD i 0 = 0)).map
              (fun i => [[(1 : ℚ), 1], [2, 0]].getD i []))
          (["aa".data, "bb".data].length))
        ["aa".data, "bb".data] 1) := by
  obtain ⟨h1, h2⟩ := extract_keywords_amended [[1, 1], [2, 0]]
    ["aa".data, "bb".data] [-1, 0] 1
  exact ⟨h1 (by decide), h2 0 (by decide) (by decide)⟩

/-! ## C5: degenerate orchestrator inputs -/

theorem embed_risks_all_blank (encode : List Str → List (List ℚ))
    (risks : List Risk) (hall : ∀ r ∈ risks, combine_risk_text r = []) :
    embed_risks encode risks = Except.error "No valid text content found in risks" := by
  have hvalid : (List.range risks.length).filter
      (fun i => pyStrip ((risks.map combine_risk_text).getD i []) ≠ []) = [] := by
    rw [List.filter_eq_nil_iff]
    intro i _
    have hblank : (risks.map combine_risk_text).getD i [] = [] := by
      rw [List.getD_eq_getElem?_getD, List.getElem?_map]
      cases hr : risks[i]? with
      | none => rfl
      | some r =>
          obtain ⟨hlt, hget⟩ := List.getElem?_eq_some_iff.mp hr
          have : r ∈ risks := hget ▸ List.getElem_mem hlt
          simp [hall r this]
    show ¬ decide (pyStrip ((risks.map combine_risk_text).getD i []) ≠ []) = true
    rw [hblank]
    decide
  simp only [embed_risks]
  rw [hvalid]
  rfl

/-- **C5.** The orchestrator returns empty node/edge/cluster lists (and
empty metadata) on an empty record list without error, and fails with the
`ValueError` message (a validation-class error) when the record list is
non-empty but every record canonicalizes to the empty string. -/
theorem analyze_degenerate_inputs (ext : AnalyzerExternals)
    (p : ClusteringParams) (t : ℚ) (k : ℕ) (risks : List Risk) :
    analyze ext p t k [] =
      Except.ok { nodes := [], edges := [], clusters := [], metadata := none } ∧
    (risks ≠ [] → (∀ r ∈ risks, combine_risk_text r = []) →
      analyze ext p t k risks =
        Except.error "No valid text content found in risks") := by
  refine ⟨rfl, ?_⟩
  intro hne hall
  unfold analyze
  rw [if_neg (by simpa [List.length_eq_zero] using hne),
    embed_risks_all_blank ext.encode risks hall]

/-- **C5, witness.** Empty input, and a single all-blank record (title a
bare sentinel, empty description). -/
theorem analyze_degenerate_inputs_witness :
    analyze trivialAnalyzerExt {} 2 5 [] =
      Except.ok { nodes := [], edges := [], clusters := [], metadata := none } ∧
    analyze trivialAnalyzerExt {} 2 5 [⟨"r1".data, some "NA".data, none, []⟩] =
      Except.error "No valid text content found in risks" := by
  obtain ⟨h1, h2⟩ := analyze_degenerate_inputs trivialAnalyzerExt {} 2 5
    [⟨"r1".data, some "NA".data, none, []⟩]
  exact ⟨h1, h2 (by decide) (by decide)⟩

/-! ## C3: the similarity-edge set -/

theorem simEntry_comm (E : List (List ℚ)) (i j : ℕ) :
    simEntry E i j = simEntry E j i :=
  dot_comm _ _

theorem simRanking_mem {E : List (List ℚ)} {n i : ℕ} {p : ℕ × ℚ}
    (hp : p ∈ simRanking E n i) :
    p.1 < n ∧ p.1 ≠ i ∧ p.2 = simEntry E i p.1 := by
  have hc : p ∈ simCandidates E n i :=
    (List.perm_insertionSort _ _).mem_iff.mp hp
  obtain ⟨j, hj, rfl⟩ := List.mem_map.mp hc
  obtain ⟨hjr, hji⟩ := List.mem_filter.mp hj
  exact ⟨List.mem_range.mp hjr, of_decide_eq_true hji, rfl⟩

theorem acceptedPairs_mem {E : List (List ℚ)} {n : ℕ} {t : ℚ} {k i : ℕ}
    {p : ℕ × ℚ} (hp : p ∈ acceptedPairs E n t k i) :
    p ∈ simRanking E n i ∧ t ≤ p.2 := by
  have h1 : p ∈ (simRanking E n i).takeWhile (fun q => !decide (q.2 < t)) :=
    List.Sublist.mem hp (List.take_sublist _ _)
  refine ⟨List.Sublist.mem h1 (List.takeWhile_sublist _), ?_⟩
  have h2 := List.mem_takeWhile_imp h1
  have h3 : ¬ (p.2 < t) := by simpa using h2
  exact le_of_not_lt h3

theorem acceptedNeighbors_mem {E : List (List ℚ)} {n : ℕ} {t : ℚ} {k i j : ℕ}
    (hj : j ∈ acceptedNeighbors E n t k i) :
    j < n ∧ j ≠ i ∧ t ≤ simEntry E i j := by
  obtain ⟨p, hp, rfl⟩ := List.mem_map.mp hj
  obtain ⟨hr, hth⟩ := acceptedPairs_mem hp
  obtain ⟨h1, h2, h3⟩ := simRanking_mem hr
  exact ⟨h1, h2, h3 ▸ hth⟩

theorem mem_find_similar_pairs {E : List (List ℚ)} {t : ℚ} {k : ℕ}
    {e : ℕ × ℕ × ℚ} :
    e ∈ find_similar_pairs E t k ↔
      ∃ i, i < E.length ∧ ∃ j ∈ acceptedNeighbors E E.length t k i,
        e = (min i j, max i j, simEntry E i j) := by
  simp only [find_similar_pairs]
  rw [List.mem_dedup, List.mem_flatMap]
  constructor
  · rintro ⟨i, hi, he⟩
    obtain ⟨j, hj, rfl⟩ := List.mem_map.mp he
    exact ⟨i, List.mem_range.mp hi, j, hj, rfl⟩
  · rintro ⟨i, hi, j, hj, rfl⟩
    exact ⟨i, List.mem_range.mpr hi, List.mem_map_of_mem _ hj⟩

/-- **C3.** The edge list of `find_similar_pairs`: every entry is a
canonically ordered pair of distinct in-range indices carrying their
exact similarity, which is at least the threshold; no entry is
duplicated, and an unordered pair carries a unique weight; and the pair
`{a, b}` appears exactly when `b` is among the first `k` above-threshold
entries of `a`'s descending similarity ranking *or* `a` is among those of
`b`'s — the union, not the intersection, of the two endpoints'
independent top-`k` searches. -/
theorem find_similar_pairs_spec (E : List (List ℚ)) (t : ℚ) (k : ℕ)
    (ht0 : 0 ≤ t) (ht1 : t ≤ 1) (hk : 1 ≤ k) :
    (∀ e ∈ find_similar_pairs E t k,
        e.1 < e.2.1 ∧ e.2.1 < E.length ∧
        e.2.2 = simEntry E e.1 e.2.1 ∧ t ≤ e.2.2) ∧
    (find_similar_pairs E t k).Nodup ∧
    (∀ a b w w', (a, b, w) ∈ find_similar_pairs E t k →
        (a, b, w') ∈ find_similar_pairs E t k → w = w') ∧
    (∀ a b, a < b → b < E.length →
        ((a, b, simEntry E a b) ∈ find_similar_pairs E t k ↔
          b ∈ acceptedNeighbors E E.length t k a ∨
          a ∈ acceptedNeighbors E E.length t k b)) := by
  have hyp1 : ∀ e ∈ find_similar_pairs E t k,
      e.1 < e.2.1 ∧ e.2.1 < E.length ∧
      e.2.2 = simEntry E e.1 e.2.1 ∧ t ≤ e.2.2 := by
    intro e he
    obtain ⟨i, hi, j, hj, rfl⟩ := mem_find_similar_pairs.mp he
    obtain ⟨hjn, hji, hth⟩ := acceptedNeighbors_mem hj
    dsimp only
    rcases Nat.lt_or_ge i j with hij | hij
    · have hmin : min i j = i := Nat.min_eq_left (le_of_lt hij)
      have hmax : max i j = j := Nat.max_eq_right (le_of_lt hij)
      rw [hmin, hmax]
      exact ⟨hij, hjn, rfl, hth⟩
    · have hij' : j < i := lt_of_le_of_ne hij hji
      have hmin : min i j = j := Nat.min_eq_right (le_of_lt hij')
      have hmax : max i j = i := Nat.max_eq_left (le_of_lt hij')
      rw [hmin, hmax]
      exact ⟨hij', hi, (simEntry_comm E i j).symm ▸ simEntry_comm E i j,
        (simEntry_comm E i j) ▸ hth⟩
  refine ⟨hyp1, List.nodup_dedup _, ?_, ?_⟩
  · intro a b w w' h1 h2
    have e1 := (hyp1 _ h1).2.2.1
    have e2 := (hyp1 _ h2).2.2.1
    exact e1.trans e2.symm
  · intro a b hab hbn
    constructor
    · intro hmem
      obtain ⟨i, hi, j, hj, heq⟩ := mem_find_similar_pairs.mp hmem
      have hji := (acceptedNeighbors_mem hj).2.1
      injection heq with h1 h23
      injection h23 with h2 h3
      rcases Nat.lt_or_ge i j with hij | hij
      · have hia : i = a := by omega
        have hjb : j = b := by omega
        subst hia; subst hjb
        exact Or.inl hj
      · have hij' : j < i := lt_of_le_of_ne hij hji
        have hja : j = a := by omega
        have hib : i = b := by omega
        subst hja; subst hib
        exact Or.inr hj
    · rintro (hacc | hacc)
      · apply mem_find_similar_pairs.mpr
        refine ⟨a, lt_trans hab hbn, b, hacc, ?_⟩
        have h1 : min a b = a := by omega
        have h2 : max a b = b := by omega
        rw [h1, h2]
      · apply mem_find_similar_pairs.mpr
        refine ⟨b, hbn, a, hacc, ?_⟩
        have h1 : min b a = a := by omega
        have h2 : max b a = b := by omega
        rw [h1, h2, simEntry_comm E b a]

/-- **C3, witness.** -/
theorem find_similar_pairs_spec_witness :
    (∀ e ∈ find_similar_pairs [[(1 : ℚ), 0], [0, 1]] 0 1,
        e.1 < e.2.1 ∧ e.2.1 < ([[(1 : ℚ), 0], [0, 1]] : List (List ℚ)).length ∧
        e.2.2 = simEntry [[(1 : ℚ), 0], [0, 1]] e.1 e.2.1 ∧ 0 ≤ e.2.2) ∧
    (find_similar_pairs [[(1 : ℚ), 0], [0, 1]] 0 1).Nodup ∧
    (∀ a b w w', (a, b, w) ∈ find_similar_pairs [[(1 : ℚ), 0], [0, 1]] 0 1 →
        (a, b, w') ∈ find_similar_pairs [[(1 : ℚ), 0], [0, 1]] 0 1 → w = w') ∧
    (∀ a b, a < b → b < ([[(1 : ℚ), 0], [0, 1]] : List (List ℚ)).length →
        ((a, b, simEntry [[(1 : ℚ), 0], [0, 1]] a b) ∈
            find_similar_pairs [[(1 : ℚ), 0], [0, 1]] 0 1 ↔
          b ∈ acceptedNeighbors [[(1 : ℚ), 0], [0, 1]] 2 0 1 a ∨
          a ∈ acceptedNeighbors [[(1 : ℚ), 0], [0, 1]] 2 0 1 b)) :=
  find_similar_pairs_spec [[(1 : ℚ), 0], [0, 1]] 0 1
    (by norm_num) (by norm_num) (by norm_num)

/-! ## C8: the layout overlap-resolution pass -/

theorem lookup_assocSet_self {m : List (Str × ℝ × ℝ)} {key : Str}
    {v np : ℝ × ℝ} (h : m.lookup key = some np) :
    (assocSet m key v).lookup key = some v := by
  induction m with
  | nil => simp [List.lookup] at h
  | cons p rest ih =>
      obtain ⟨pk, pv⟩ := p
      show ((if pk = key then (key, v) else (pk, pv)) ::
        assocSet rest key v).lookup key = some v
      by_cases hpk : pk = key
      · rw [if_pos hpk]
        simp [List.lookup]
      · rw [if_neg hpk]
        have hk : (key == pk) = false := beq_false_of_ne (fun he => hpk he.symm)
        simp only [List.lookup, hk]
        apply ih
        simpa [List.lookup, hk] using h

theorem lookup_assocSet_other {m : List (Str × ℝ × ℝ)} {key k' : Str}
    {v : ℝ × ℝ} (h : k' ≠ key) :
    (assocSet m key v).lookup k' = m.lookup k' := by
  induction m with
  | nil => rfl
  | cons p rest ih =>
      obtain ⟨pk, pv⟩ := p
      show ((if pk = key then (key, v) else (pk, pv)) ::
        assocSet rest key v).lookup k' = ((pk, pv) :: rest).lookup k'
      by_cases hpk : pk = key
      · rw [if_pos hpk]
        subst hpk
        have hk : (k' == pk) = false := beq_false_of_ne h
        simp only [List.lookup, hk]
        exact ih
      · rw [if_neg hpk]
        simp only [List.lookup]
        cases hk : (k' == pk) with
        | false => simp only [hk]; exact ih
        | true => simp only [hk]

theorem overlapStep_lookup_other {clusterPos : List (ℤ × ℝ × ℝ)}
    {labels : List ℤ} {m : List (Str × ℝ × ℝ)} {i : ℕ} {nid k' : Str}
    (h : k' ≠ nid) :
    (overlapStep clusterPos labels m i nid).lookup k' = m.lookup k' := by
  simp only [overlapStep]
  by_cases hcid : labels.getD i (-1) = -1
  · rw [if_pos hcid]
  · rw [if_neg hcid]
    cases hnp : m.lookup nid with
    | none => rfl
    | some np =>
        cases hcp : clusterPos.lookup (labels.getD i (-1)) with
        | none => rfl
        | some cp =>
            dsimp only
            by_cases hd : Real.sqrt (sqDist np cp) < 40
            · rw [if_pos hd]
              exact lookup_assocSet_other h
            · rw [if_neg hd]

theorem overlapLoop_lookup_other {clusterPos : List (ℤ × ℝ × ℝ)}
    {labels : List ℤ} {key : Str} (nodeIds : List Str)
    (h : ∀ nid ∈ nodeIds, nid ≠ key) (start : ℕ) (m : List (Str × ℝ × ℝ)) :
    (overlapLoop clusterPos labels start nodeIds m).lookup key = m.lookup key := by
  induction nodeIds generalizing start m with
  | nil => rfl
  | cons nid rest ih =>
      show (overlapLoop clusterPos labels (start + 1) rest
        (overlapStep clusterPos labels m start nid)).lookup key = _
      rw [ih (fun x hx => h x (List.mem_cons.mpr (Or.inr hx))) (start + 1)]
      exact overlapStep_lookup_other
        (fun he => h nid (List.mem_cons_self _ _) he.symm)

theorem overlapStep_lookup_congr {clusterPos : List (ℤ × ℝ × ℝ)}
    {labels : List ℤ} {m m' : List (Str × ℝ × ℝ)} {i : ℕ} {nid : Str}
    (h : m.lookup nid = m'.lookup nid) :
    (overlapStep clusterPos labels m i nid).lookup nid =
      (overlapStep clusterPos labels m' i nid).lookup nid := by
  simp only [overlapStep]
  by_cases hcid : labels.getD i (-1) = -1
  · rw [if_pos hcid, if_pos hcid]
    exact h
  · rw [if_neg hcid, if_neg hcid, ← h]
    cases hnp : m.lookup nid with
    | none => exact h
    | some np =>
        cases hcp : clusterPos.lookup (labels.getD i (-1)) with
        | none => exact h
        | some cp =>
            dsimp only
            by_cases hd : Real.sqrt (sqDist np cp) < 40
            · rw [if_pos hd, if_pos hd]
              rw [lookup_assocSet_self hnp,
                lookup_assocSet_self (h.symm.trans hnp)]
            · rw [if_neg hd, if_neg hd]
              exact h

theorem getD_mem_of_lt_str {l : List Str} {j : ℕ} (h : j < l.length) :
    l.getD j [] ∈ l := by
  rw [List.getD_eq_getElem?_getD, List.getElem?_eq_getElem h]
  exact List.getElem_mem h

/-- The value the overlap pass leaves at the `j`-th node's key is exactly
the value one `overlapStep` at index `start + j` computes from the
initial map — earlier and later iterations touch other keys only. -/
theorem overlapLoop_lookup (clusterPos : List (ℤ × ℝ × ℝ)) (labels : List ℤ)
    (nodeIds : List Str) (start : ℕ) (m : List (Str × ℝ × ℝ)) (j : ℕ)
    (hj : j < nodeIds.length) (hnodup : nodeIds.Nodup) :
    (overlapLoop clusterPos labels start nodeIds m).lookup (nodeIds.getD j []) =
      (overlapStep clusterPos labels m (start + j)
        (nodeIds.getD j [])).lookup (nodeIds.getD j []) := by
  induction nodeIds generalizing start m j with
  | nil => simp at hj
  | cons nid rest ih =>
      obtain ⟨hnotin, hrest⟩ := List.nodup_cons.mp hnodup
      cases j with
      | zero =>
          show (overlapLoop clusterPos labels (start + 1) rest
            (overlapStep clusterPos labels m start nid)).lookup nid = _
          rw [overlapLoop_lookup_other rest
            (fun x hx he => hnotin (by rw [← he]; exact hx)) (start + 1)]
          simp
      | succ j' =>
          have hj' : j' < rest.length := by simpa using hj
          show (overlapLoop clusterPos labels (start + 1) rest
            (overlapStep clusterPos labels m start nid)).lookup
              (rest.getD j' []) = _
          rw [ih (start + 1) _ j' hj' hrest]
          have hne : rest.getD j' [] ≠ nid := by
            intro he
            exact hnotin (he ▸ getD_mem_of_lt_str hj')
          have harith : start + 1 + j' = start + (j' + 1) := by omega
          rw [harith]
          exact overlapStep_lookup_congr (overlapStep_lookup_other hne)

/-- Scaling a vector of norm `d > 0` by `40 / d` gives norm 40. -/
theorem sqrt_scaled (dx dy d : ℝ) (hd : Real.sqrt (dx * dx + dy * dy) = d)
    (hpos : 0 < d) :
    Real.sqrt ((dx * (40 / d)) * (dx * (40 / d)) +
      (dy * (40 / d)) * (dy * (40 / d))) = 40 := by
  have h1 : (dx * (40 / d)) * (dx * (40 / d)) +
      (dy * (40 / d)) * (dy * (40 / d)) =
      (40 / d) ^ 2 * (dx * dx + dy * dy) := by ring
  rw [h1, Real.sqrt_mul (sq_nonneg _), Real.sqrt_sq (by positivity), hd]
  field_simp

/-- **C8.** After the overlap-resolution pass, the non-noise node at
index `i` (present in the positions map, its cluster having a position)
lies at distance at least 40 from its cluster position; when it started
closer than 40 it is pushed radially to exactly distance 40 (along its
own direction when it started at least 0.1 away, along the golden-angle
direction `i * 2.39996` when it started within 0.1, so simultaneously
degenerate nodes get distinct deterministic directions). -/
theorem overlapResolve_spec (nodeIds : List Str) (labels : List ℤ)
    (clusterPos : List (ℤ × ℝ × ℝ)) (m0 : List (Str × ℝ × ℝ))
    (i : ℕ) (np cp : ℝ × ℝ)
    (hnodup : nodeIds.Nodup)
    (hi : i < nodeIds.length)
    (hcid : labels.getD i (-1) ≠ -1)
    (hnp : m0.lookup (nodeIds.getD i []) = some np)
    (hcp : clusterPos.lookup (labels.getD i (-1)) = some cp) :
    ∃ q, (overlapResolve nodeIds labels clusterPos m0).lookup
        (nodeIds.getD i []) = some q ∧
      40 ≤ Real.sqrt (sqDist q cp) ∧
      (40 ≤ Real.sqrt (sqDist np cp) → q = np) ∧
      (Real.sqrt (sqDist np cp) < 40 → Real.sqrt (sqDist q cp) = 40) ∧
      (Real.sqrt (sqDist np cp) < 40 → 0.1 ≤ Real.sqrt (sqDist np cp) →
        q = (cp.1 + (np.1 - cp.1) * (40 / Real.sqrt (sqDist np cp)),
             cp.2 + (np.2 - cp.2) * (40 / Real.sqrt (sqDist np cp)))) ∧
      (Real.sqrt (sqDist np cp) < 0.1 →
        q = (cp.1 + Real.cos ((i : ℝ) * 2.39996) * 40,
             cp.2 + Real.sin ((i : ℝ) * 2.39996) * 40)) := by
  have hfinal : (overlapResolve nodeIds labels clusterPos m0).lookup
      (nodeIds.getD i []) =
      (overlapStep clusterPos labels m0 i
        (nodeIds.getD i [])).lookup (nodeIds.getD i []) := by
    have := overlapLoop_lookup clusterPos labels nodeIds 0 m0 i hi hnodup
    simpa [overlapResolve] using this
  have hstep : (overlapStep clusterPos labels m0 i
      (nodeIds.getD i [])).lookup (nodeIds.getD i []) =
      some (if Real.sqrt (sqDist np cp) < 40 then pushedPos i cp np else np) := by
    simp only [overlapStep]
    rw [if_neg hcid, hnp, hcp]
    dsimp only
    by_cases hd : Real.sqrt (sqDist np cp) < 40
    · rw [if_pos hd, if_pos hd]
      exact lookup_assocSet_self hnp
    · rw [if_neg hd, if_neg hd]
      exact hnp
  refine ⟨_, hfinal.trans hstep, ?_, ?_, ?_, ?_, ?_⟩
  · by_cases hd : Real.sqrt (sqDist np cp) < 40
    · rw [if_pos hd]
      by_cases hd1 : Real.sqrt (sqDist np cp) < 0.1
      · have : Real.sqrt (sqDist (pushedPos i cp np) cp) = 40 := by
          rw [pushedPos]
          simp only [if_pos hd1]
          show Real.sqrt (sqDist
            (cp.1 + Real.cos ((i : ℝ) * 2.39996) * (40 / 1),
             cp.2 + Real.sin ((i : ℝ) * 2.39996) * (40 / 1)) cp) = 40
          rw [sqDist]
          have hring : (cp.1 + Real.cos ((i : ℝ) * 2.39996) * (40 / 1) - cp.1) *
              (cp.1 + Real.cos ((i : ℝ) * 2.39996) * (40 / 1) - cp.1) +
              (cp.2 + Real.sin ((i : ℝ) * 2.39996) * (40 / 1) - cp.2) *
              (cp.2 + Real.sin ((i : ℝ) * 2.39996) * (40 / 1) - cp.2) =
              1600 * (Real.sin ((i : ℝ) * 2.39996) ^ 2 +
                Real.cos ((i : ℝ) * 2.39996) ^ 2) := by ring
          rw [hring, Real.sin_sq_add_cos_sq]
          rw [show (1600 : ℝ) * 1 = 40 ^ 2 by norm_num,
            Real.sqrt_sq (by norm_num)]
        rw [this]
      · have hpos : (0 : ℝ) < Real.sqrt (sqDist np cp) := by
          have : (0.1 : ℝ) ≤ Real.sqrt (sqDist np cp) := le_of_not_lt hd1
          linarith
        have : Real.sqrt (sqDist (pushedPos i cp np) cp) = 40 := by
          rw [pushedPos]
          simp only [if_neg hd1]
          show Real.sqrt (sqDist
            (cp.1 + (np.1 - cp.1) * (40 / Real.sqrt (sqDist np cp)),
             cp.2 + (np.2 - cp.2) * (40 / Real.sqrt (sqDist np cp))) cp) = 40
          rw [sqDist]
          have hsimp : ∀ a b : ℝ, a + b - a = b := fun a b => by ring
          rw [hsimp, hsimp]
          exact sqrt_scaled _ _ _ rfl hpos
        rw [this]
    · rw [if_neg hd]
      exact le_of_not_lt hd
  · intro h40
    rw [if_neg (not_lt.mpr h40)]
  · intro hd
    rw [if_pos hd]
    by_cases hd1 : Real.sqrt (sqDist np cp) < 0.1
    · rw [pushedPos]
      simp only [if_pos hd1]
      show Real.sqrt (sqDist
        (cp.1 + Real.cos ((i : ℝ) * 2.39996) * (40 / 1),
         cp.2 + Real.sin ((i : ℝ) * 2.39996) * (40 / 1)) cp) = 40
      rw [sqDist]
      have hring : (cp.1 + Real.cos ((i : ℝ) * 2.39996) * (40 / 1) - cp.1) *
          (cp.1 + Real.cos ((i : ℝ) * 2.39996) * (40 / 1) - cp.1) +
          (cp.2 + Real.sin ((i : ℝ) * 2.39996) * (40 / 1) - cp.2) *
          (cp.2 + Real.sin ((i : ℝ) * 2.39996) * (40 / 1) - cp.2) =
          1600 * (Real.sin ((i : ℝ) * 2.39996) ^ 2 +
            Real.cos ((i : ℝ) * 2.39996) ^ 2) := by ring
      rw [hring, Real.sin_sq_add_cos_sq]
      rw [show (1600 : ℝ) * 1 = 40 ^ 2 by norm_num,
        Real.sqrt_sq (by norm_num)]
    · have hpos : (0 : ℝ) < Real.sqrt (sqDist np cp) := by
        have : (0.1 : ℝ) ≤ Real.sqrt (sqDist np cp) := le_of_not_lt hd1
        linarith
      rw [pushedPos]
      simp only [if_neg hd1]
      show Real.sqrt (sqDist
        (cp.1 + (np.1 - cp.1) * (40 / Real.sqrt (sqDist np cp)),
         cp.2 + (np.2 - cp.2) * (40 / Real.sqrt (sqDist np cp))) cp) = 40
      rw [sqDist]
      have hsimp : ∀ a b : ℝ, a + b - a = b := fun a b => by ring
      rw [hsimp, hsimp]
      exact sqrt_scaled _ _ _ rfl hpos
  · intro hd hd1
    rw [if_pos hd, pushedPos]
    simp only [if_neg (not_lt.mpr hd1)]
  · intro hd1
    have hd : Real.sqrt (sqDist np cp) < 40 := by linarith
    rw [if_pos hd, pushedPos]
    simp only [if_pos hd1]
    show (cp.1 + Real.cos ((i : ℝ) * 2.39996) * (40 / 1),
      cp.2 + Real.sin ((i : ℝ) * 2.39996) * (40 / 1)) = _
    norm_num

/-- **C8, witness.** One node at `(3, 4)` with its cluster at the origin:
distance 5, pushed to `(24, 32)` at distance exactly 40. -/
theorem overlapResolve_spec_witness :
    ∃ q, (overlapResolve ["a".data] [0] [((0 : ℤ), ((0 : ℝ), (0 : ℝ)))]
        [("a".data, ((3 : ℝ), (4 : ℝ)))]).lookup (["a".data].getD 0 []) = some q ∧
      40 ≤ Real.sqrt (sqDist q (0, 0)) ∧
      (40 ≤ Real.sqrt (sqDist ((3 : ℝ), (4 : ℝ)) (0, 0)) → q = (3, 4)) ∧
      (Real.sqrt (sqDist ((3 : ℝ), (4 : ℝ)) (0, 0)) < 40 →
        Real.sqrt (sqDist q (0, 0)) = 40) ∧
      (Real.sqrt (sqDist ((3 : ℝ), (4 : ℝ)) (0, 0)) < 40 →
        0.1 ≤ Real.sqrt (sqDist ((3 : ℝ), (4 : ℝ)) (0, 0)) →
        q = (0 + ((3 : ℝ) - 0) * (40 / Real.sqrt (sqDist ((3 : ℝ), (4 : ℝ)) (0, 0))),
             0 + ((4 : ℝ) - 0) * (40 / Real.sqrt (sqDist ((3 : ℝ), (4 : ℝ)) (0, 0))))) ∧
      (Real.sqrt (sqDist ((3 : ℝ), (4 : ℝ)) (0, 0)) < 0.1 →
        q = (0 + Real.cos ((0 : ℝ) * 2.39996) * 40,
             0 + Real.sin ((0 : ℝ) * 2.39996) * 40)) := by
  have h := overlapResolve_spec ["a".data] [0] [((0 : ℤ), ((0 : ℝ), (0 : ℝ)))]
    [("a".data, ((3 : ℝ), (4 : ℝ)))] 0 (3, 4) (0, 0)
    (by decide) (by decide) (by decide) rfl rfl
  simpa using h

end RiskNet
